import Mathlib

/-!
Verification of the fixed-income fund recommender core
(`fif_recsys/commands/feature.py`, `model.py`, `policy.py`).

Shallow embedding conventions:
* A numeric cell after `pd.to_numeric(..., errors="coerce")` is `Option ℚ`
  (resp. `Option ℝ` in the score engine); `none` is NaN.
* pandas group sums skip NaN (`filterMap id` before `List.sum`).
* Float division of two group sums can produce NaN or a signed infinity,
  captured by `FVal`.
* Python exceptions become `Except EngErr`; `ValueError` (the spec's
  ConfigurationError) carries its message, `TypeError` / `KeyError` /
  `IndexError` are the other constructors.
-/

set_option autoImplicit false

namespace FifRecsys

/-- Result of a float division of group sums, as pandas produces it:
a rational, NaN (0/0), or a signed infinity (x/0 with x ≠ 0). -/
inductive FVal where
  | nan : FVal
  | pinf : FVal
  | ninf : FVal
  | num : ℚ → FVal
deriving DecidableEq

/-- Float division `n / d` of two exact group sums: `0/0` is NaN and
`x/0` for `x ≠ 0` is a signed infinity, otherwise the rational quotient. -/
def fdiv (n d : ℚ) : FVal :=
  if d = 0 then (if n = 0 then .nan else if 0 < n then .pinf else .ninf)
  else .num (n / d)

/-- pandas `Series.sum()` over a NaN-able column: NaN entries are skipped. -/
def nanSum (l : List (Option ℚ)) : ℚ := (l.filterMap id).sum

/-- test for `FVal.nan`. -/
def FVal.isNan : FVal → Bool
  | .nan => true
  | _ => false

/-- infinity test. -/
def FVal.isInf : FVal → Bool
  | .pinf => true
  | .ninf => true
  | _ => false

/-- the rational carried by a finite `FVal`. -/
def FVal.toNum : FVal → Option ℚ
  | .num q => some q
  | _ => none

/-- squaring an `FVal` (`weight ** 2`): NaN stays NaN, either infinity
squares to `+∞`, a number squares to its square. -/
def FVal.sq : FVal → FVal
  | .nan => .nan
  | .pinf => .pinf
  | .ninf => .pinf
  | .num q => .num (q * q)

/-- model of `np.sum` over a list of float values (no NaN skipping): NaN anywhere
gives NaN; otherwise any `+∞` term (squares contribute no `-∞`) gives `+∞`;
otherwise the exact sum. -/
def npSum (l : List FVal) : FVal :=
  if l.any FVal.isNan then .nan
  else if l.any FVal.isInf then .pinf
  else .num (l.filterMap FVal.toNum).sum

/-! ### Custom feature functions (`feature.py` lines 105-156)

One raw disclosure row carries the composite group key (abstracted to a
type `κ`), the asset-type classification `TP_APLIC`, the issuer identifier
`CPF_CNPJ_EMISSOR` and the numerically coerced position market value
`VL_MERC_POS_FINAL`. -/

/-- A raw disclosure row restricted to the columns the custom feature
functions read. `vl` is `VL_MERC_POS_FINAL` after `pd.to_numeric`. -/
structure DRow (κ : Type) where
  key : κ
  tp_aplic : String
  emissor : String
  vl : Option ℚ
deriving DecidableEq

variable {κ : Type} [DecidableEq κ]

/-- the rows of one group (`df.groupby(group_keys)` member). -/
def groupRows (df : List (DRow κ)) (k : κ) : List (DRow κ) :=
  df.filter (fun r => decide (r.key = k))

/-- indicator `is_credito`: 1 when the row's `TP_APLIC` is in the caller-supplied
credit-linked list, else 0 (`feature.py` line 113). -/
def is_credito (creditoList : List String) (r : DRow κ) : ℚ :=
  if r.tp_aplic ∈ creditoList then 1 else 0

/-- group numerator `Σ VL_MERC_POS_FINAL * is_credito` (NaN skipped by the
pandas group sum, `feature.py` line 114). -/
def creditoNum (df : List (DRow κ)) (creditoList : List String) (k : κ) : ℚ :=
  nanSum ((groupRows df k).map (fun r => r.vl.map (fun q => q * is_credito creditoList r)))

/-- group denominator `Σ VL_MERC_POS_FINAL` (`feature.py` line 115). -/
def posDenom (df : List (DRow κ)) (k : κ) : ℚ :=
  nanSum ((groupRows df k).map (fun r => r.vl))

/-- model of `_credito_share_feature_fn` restricted to one group key: the float
quotient of the two group sums (`feature.py` lines 105-117). -/
def credito_share_feature_fn (df : List (DRow κ)) (creditoList : List String) (k : κ) : FVal :=
  fdiv (creditoNum df creditoList k) (posDenom df k)

/-- the group's distinct issuers, in order of first appearance
(the `groupby(group_keys + ["CPF_CNPJ_EMISSOR"])` second level). -/
def issuersOf (df : List (DRow κ)) (k : κ) : List String :=
  ((groupRows df k).map (fun r => r.emissor)).dedup

/-- column `pos`: summed position value of one (group, issuer) pair
(`feature.py` lines 142-146). -/
def issuerPos (df : List (DRow κ)) (k : κ) (e : String) : ℚ :=
  nanSum (((groupRows df k).filter (fun r => decide (r.emissor = e))).map (fun r => r.vl))

/-- the group total `x.sum()` over the per-issuer sums, the denominator of
the weight transform (`feature.py` line 148). -/
def groupTotal (df : List (DRow κ)) (k : κ) : ℚ :=
  ((issuersOf df k).map (fun e => issuerPos df k e)).sum

/-- the transform `weight = pos / total` for one issuer (`feature.py` line 148). -/
def issuerWeight (df : List (DRow κ)) (k : κ) (e : String) : FVal :=
  fdiv (issuerPos df k e) (groupTotal df k)

/-- model of `_hhi_feature_fn` restricted to one group key:
`np.sum(weight ** 2)` over the group's issuers (`feature.py` lines 150-156). -/
def hhi_feature_fn (df : List (DRow κ)) (k : κ) : FVal :=
  npSum ((issuersOf df k).map (fun e => (issuerWeight df k e).sq))

/-! ### Errors

Python exceptions raised by the engines. `ValueError` is what the spec
calls ConfigurationError; its message is modelled without the quote marks
Python prints around interpolated names. -/

/-- An exception escaping an engine call. -/
inductive EngErr where
  | config : String → EngErr
  | typeErr : EngErr
  | keyErr : String → EngErr
  | indexErr : EngErr
deriving DecidableEq

/-! ### Score engine (`model.py` lines 24-72)

The feature table the score engine works on: each row carries the value of
the `group_by` column (a string, e.g. `competencia`) and its numeric cells.
Cells are `Option ℝ` because the z-score involves a square root. -/

/-- One row of the score engine's table: `grp` is the row's value in the
`group_by` column, `vals` its numeric cells (`none` = NaN). -/
structure SRow where
  grp : String
  vals : String → Option ℝ

/-- The score engine's table: its column names and its rows. -/
structure STable where
  cols : List String
  rows : List SRow

/-- One score definition: `cfg.get("type")`, `cfg.get("args", {}).get("feature")`
and `cfg.get("adjustment", [])`. -/
structure ScoreCfg where
  type : Option String
  feature : Option String
  adjustment : List String
deriving DecidableEq

/-- the non-NaN entries of a column, as pandas `skipna` sees them. -/
def presentR (l : List (Option ℝ)) : List ℝ := l.filterMap id

/-- pandas `Series.mean()`: NaN (none) on an all-NaN column. -/
noncomputable def smean (l : List (Option ℝ)) : Option ℝ :=
  if presentR l = [] then none
  else some ((presentR l).sum / (presentR l).length)

/-- pandas `Series.var()` (ddof = 1): NaN with fewer than two data points. -/
noncomputable def svar (l : List (Option ℝ)) : Option ℝ :=
  if (presentR l).length < 2 then none
  else some (((presentR l).map
      (fun x => (x - (presentR l).sum / (presentR l).length) ^ 2)).sum
        / ((presentR l).length - 1))

/-- pandas `Series.std()` = square root of the ddof-1 variance. -/
noncomputable def sstd (l : List (Option ℝ)) : Option ℝ := (svar l).map Real.sqrt

/-- the 1e-6 regularizer of `_zscore`. -/
noncomputable def eps : ℝ := 1 / 1000000

/-- model of `_zscore(s) = (s - s.mean()) / (s.std() + 1e-6)` (`model.py` lines 24-25),
elementwise with NaN propagation: when mean or std is NaN every entry is NaN. -/
noncomputable def zscore (l : List (Option ℝ)) : List (Option ℝ) :=
  match smean l, sstd l with
  | some m, some sd => l.map (Option.map (fun x => (x - m) / (sd + eps)))
  | _, _ => l.map (fun _ => none)

/-- the feature column `f` restricted to the group `g` (row order kept). -/
def colIn (rows : List SRow) (f : String) (g : String) : List (Option ℝ) :=
  (rows.filter (fun r => decide (r.grp = g))).map (fun r => r.vals f)

/-- model of `out.groupby(group_by)[feat].transform(_zscore)` at one row: the
`_zscore` value of that row's cell within its own group. -/
noncomputable def transformZ (rows : List SRow) (f : String) (r : SRow) : Option ℝ :=
  match smean (colIn rows f r.grp), sstd (colIn rows f r.grp) with
  | some m, some sd => (r.vals f).map (fun x => (x - m) / (sd + eps))
  | _, _ => none

/-- assignment `out[name] = ...` on the score table: the column list grows unless the
name already exists, every row gets the new cell. -/
noncomputable def saddCol (t : STable) (name : String) (f : SRow → Option ℝ) : STable :=
  ⟨if name ∈ t.cols then t.cols else t.cols ++ [name],
   t.rows.map (fun r => ⟨r.grp, fun c => if c = name then f r else r.vals c⟩)⟩

/-- the message of `ValueError(f"Unsupported score type: {score_type}")`. -/
def errUnsupported (t : Option String) : String :=
  "Unsupported score type: " ++ (match t with | some s => s | none => "None")

/-- processing of a single score definition (`model.py` lines 47-70):
a z-score definition with a present source feature gets the group-wise
z-score then `invert` / `coalesce`; an absent (or missing) source feature
yields an all-NaN column; any other type raises `ValueError`. -/
noncomputable def scoreOne (t : STable) (name : String) (cfg : ScoreCfg) :
    Except EngErr STable :=
  if cfg.type = some "zscore" then
    match cfg.feature with
    | some f =>
      if f ∈ t.cols then
        .ok (saddCol t name (fun r =>
          let base := transformZ t.rows f r
          let inv := if "invert" ∈ cfg.adjustment then base.map (fun x => -1 * x) else base
          if "coalesce" ∈ cfg.adjustment then some (inv.getD 0) else inv))
      else .ok (saddCol t name (fun _ => none))
    | none => .ok (saddCol t name (fun _ => none))
  else .error (.config (errUnsupported cfg.type))

/-- model of `compute_scores_from_df` (`model.py` lines 28-72): fold the score
definitions in registry order over a copy of the input table, aborting on
the first unsupported score type. -/
noncomputable def compute_scores_from_df (t : STable) :
    List (String × ScoreCfg) → Except EngErr STable
  | [] => .ok t
  | (n, c) :: rest =>
    match scoreOne t n c with
    | .ok t2 => compute_scores_from_df t2 rest
    | .error e => .error e

/-! ### Policy / ranking engine (`policy.py` lines 30-74)

The scored table is modelled with exact rational cells. -/

/-- One row of the policy engine's table (`none` = NaN). -/
structure PRow where
  vals : String → Option ℚ

/-- The policy engine's table. -/
structure PTable where
  cols : List String
  rows : List PRow

/-- Python `sum(result[metric] * weight for metric, weight in weights.items()
if metric in result.columns)` at one row: absent metrics are skipped;
when nothing remains the scalar 0 is broadcast; a NaN operand makes the
whole sum NaN. -/
def wscore (cols : List String) (ws : List (String × ℚ)) (r : PRow) : Option ℚ :=
  if ws.filter (fun p => decide (p.1 ∈ cols)) = [] then some 0
  else (ws.filter (fun p => decide (p.1 ∈ cols))).foldl
    (fun acc p =>
      match acc, r.vals p.1 with
      | some a, some v => some (a + v * p.2)
      | _, _ => none) (some 0)

/-- Modelled from the spec's words, for comparison with `wscore`:
"Weighted score = Σ over weights of (column value × weight), restricted to
columns present in the table", with NaN propagating through the sum. -/
def specWeightedScore (cols : List String) (ws : List (String × ℚ)) (r : PRow) : Option ℚ :=
  ((ws.filter (fun p => decide (p.1 ∈ cols))).map
    (fun p => (r.vals p.1).map (fun v => v * p.2))).foldl
      (fun acc c =>
        match acc, c with
        | some a, some v => some (a + v)
        | _, _ => none) (some 0)

/-- distinct non-NaN scores strictly greater than `v`
(the values ranked above `v` by a descending dense rank). -/
def distinctAbove (scores : List (Option ℚ)) (v : ℚ) : ℕ :=
  ((scores.filterMap id).toFinset.filter (fun w => v < w)).card

/-- model of `rank(method="dense", ascending=False).fillna(0)`: a NaN score ranks 0,
a present score ranks one more than the number of distinct scores above it. -/
def denseRank (scores : List (Option ℚ)) : Option ℚ → ℕ
  | none => 0
  | some v => 1 + distinctAbove scores v

/-- assignment `result[name] = ...` on the policy table. -/
def paddCol (t : PTable) (name : String) (f : PRow → Option ℚ) : PTable :=
  ⟨if name ∈ t.cols then t.cols else t.cols ++ [name],
   t.rows.map (fun r => ⟨fun c => if c = name then f r else r.vals c⟩)⟩

/-- one iteration of the profile loop (`policy.py` lines 51-71): append the
weighted-score column, then the dense-rank column computed from it over the
whole table (no grouping), NaN ranked 0, stored as an integer. -/
def profileStep (t : PTable) (pname : String) (ws : List (String × ℚ)) : PTable :=
  let t1 := paddCol t ("score_" ++ pname) (wscore t.cols ws)
  paddCol t1 ("rank_" ++ pname)
    (fun r => some ((denseRank (t.rows.map (wscore t.cols ws))
        (r.vals ("score_" ++ pname)) : ℕ) : ℚ))

/-- model of `compute_profile_scores_from_df` (`policy.py` lines 30-74). -/
def compute_profile_scores_from_df (t : PTable)
    (profiles : List (String × List (String × ℚ))) : PTable :=
  profiles.foldl (fun acc p => profileStep acc p.1 p.2) t

/-! ### Feature engine (`feature.py` lines 26-101, 241-298)

The engine is generic over the method registry: a `FEATURE_ENGINE` entry
is a kind together with its pandas transform. Rows of a raw dataset are
abstracted to a group-key value plus numeric cells. -/

/-- A raw dataset row as the generic feature engine sees it. -/
structure FRow (κ : Type) where
  key : κ
  cell : String → Option ℚ

/-- A `FEATURE_ENGINE` entry: its kind (`type` in the registry dictionary)
and its pandas function. `args` beyond the column name are abstracted into
the stored function for `custom`, and a row operation receives the raw
auxiliary argument strings. -/
inductive FMethod (κ : Type) where
  | aggregation (f : List (Option ℚ) → Option ℚ)
  | row_operation (f : Option ℚ → List String → Option ℚ)
  | custom (f : List (FRow κ) → List String → List (κ × Option ℚ))
  | adjustment (f : Option ℚ → Option ℚ)

/-- One feature definition from the YAML registry. -/
structure FeatureDef where
  method : String
  args : List String
  adjustment : List String
deriving DecidableEq

/-- the distinct group keys of a dataset, in order of first appearance. -/
def fkeys {κ : Type} [DecidableEq κ] (df : List (FRow κ)) : List κ :=
  (df.map (fun r => r.key)).dedup

/-- the rows of one group. -/
def fgroup {κ : Type} [DecidableEq κ] (df : List (FRow κ)) (k : κ) : List (FRow κ) :=
  df.filter (fun r => decide (r.key = k))

/-- method dispatch (`feature.py` lines 44-84), producing the per-group
single-column table `df_agg`: an unknown method name raises
`ValueError("Method ... not found in FEATURE_ENGINE")`; an aggregation is
applied to the named column of each group; a row operation is applied per
row then summed per group (NaN skipped); a custom function receives the
whole table and the arguments; a registry entry of kind `adjustment` used
as the main method falls into the `Unknown method type` branch. -/
def computeBase {κ : Type} [DecidableEq κ] (engine : String → Option (FMethod κ))
    (df : List (FRow κ)) (fd : FeatureDef) : Except EngErr (List (κ × Option ℚ)) :=
  match engine fd.method with
  | none => .error (.config ("Method " ++ fd.method ++ " not found in FEATURE_ENGINE"))
  | some (.aggregation f) =>
    match fd.args with
    | [] => .error .indexErr
    | col :: _ =>
      .ok ((fkeys df).map (fun k => (k, f ((fgroup df k).map (fun r => r.cell col)))))
  | some (.row_operation f) =>
    match fd.args with
    | [] => .error .indexErr
    | col :: rest =>
      .ok ((fkeys df).map (fun k =>
        (k, some (nanSum ((fgroup df k).map (fun r => f (r.cell col) rest))))))
  | some (.custom f) => .ok (f df fd.args)
  | some (.adjustment _) => .error (.config "Unknown method type: adjustment")

/-- assignment `df_agg[feat_name] = adj_func(df_agg[feat_name])` for one adjustment
entry: an adjustment-kind transform maps the column; an aggregation-kind
function is called on the column Series and its scalar result broadcast to
every row; a row-operation or custom function called with a single
positional argument raises a Python `TypeError`. -/
def applyAdj {κ : Type} (m : FMethod κ) (tbl : List (κ × Option ℚ)) :
    Except EngErr (List (κ × Option ℚ)) :=
  match m with
  | .adjustment f => .ok (tbl.map (fun p => (p.1, f p.2)))
  | .aggregation f => .ok (tbl.map (fun p => (p.1, f (tbl.map (fun q => q.2)))))
  | .row_operation _ => .error .typeErr
  | .custom _ => .error .typeErr

/-- the adjustment loop (`feature.py` lines 86-91): names resolved in
listed order, an absent name raises `ValueError("Adjustment ... not found")`;
no check that the resolved entry has kind `adjustment`. -/
def applyAdjs {κ : Type} (engine : String → Option (FMethod κ)) :
    List String → List (κ × Option ℚ) → Except EngErr (List (κ × Option ℚ))
  | [], tbl => .ok tbl
  | a :: rest, tbl =>
    match engine a with
    | none => .error (.config ("Adjustment " ++ a ++ " not found"))
    | some m =>
      match applyAdj m tbl with
      | .ok t2 => applyAdjs engine rest t2
      | .error e => .error e

/-- computation of one named feature: dispatch then adjustments. -/
def computeOne {κ : Type} [DecidableEq κ] (engine : String → Option (FMethod κ))
    (df : List (FRow κ)) (nfd : String × FeatureDef) :
    Except EngErr (List (κ × Option ℚ)) :=
  match computeBase engine df nfd.2 with
  | .ok t => applyAdjs engine nfd.2.adjustment t
  | .error e => .error e

/-- the matches of a group key in a single-feature table. -/
def lookupRows {κ : Type} [DecidableEq κ] {α : Type} (tbl : List (κ × α)) (k : κ) :
    List (κ × α) :=
  tbl.filter (fun p => decide (p.1 = k))

/-- model of `final.merge(partial, on=group_keys, how="left")` where the base rows
already carry a list of feature cells and the right table one more: every
base row is kept (duplicated per match, NaN-extended when unmatched). -/
def mergeLeft {κ : Type} [DecidableEq κ] (base : List (κ × List (Option ℚ)))
    (tbl : List (κ × Option ℚ)) : List (κ × List (Option ℚ)) :=
  base.flatMap (fun p =>
    match lookupRows tbl p.1 with
    | [] => [(p.1, p.2 ++ [none])]
    | ms => ms.map (fun m => (p.1, p.2 ++ [m.2])))

/-- the feature loop collecting `results` in registry order, aborting on
the first raised error (`feature.py` lines 41-93). -/
def collectFeatures {κ : Type} [DecidableEq κ] (engine : String → Option (FMethod κ))
    (df : List (FRow κ)) : List (String × FeatureDef) →
    Except EngErr (List (List (κ × Option ℚ)))
  | [] => .ok []
  | nfd :: rest =>
    match computeOne engine df nfd with
    | .error e => .error e
    | .ok t =>
      match collectFeatures engine df rest with
      | .error e => .error e
      | .ok ts => .ok (t :: ts)

/-- model of `compute_features` (`feature.py` lines 33-99): compute every feature,
then left-join the tables pairwise onto the first one; `results[0]` on an
empty registry raises `IndexError`. -/
def compute_features {κ : Type} [DecidableEq κ] (engine : String → Option (FMethod κ))
    (df : List (FRow κ)) (registry : List (String × FeatureDef)) :
    Except EngErr (List (κ × List (Option ℚ))) :=
  match collectFeatures engine df registry with
  | .error e => .error e
  | .ok [] => .error .indexErr
  | .ok (t0 :: rest) => .ok (rest.foldl mergeLeft (t0.map (fun p => (p.1, [p.2]))))

/-! ### Dataset assembly (`feature.py` lines 241-298) -/

/-- A per-dataset feature table tagged with its column count, as needed to
pad outer-join misses. -/
structure FTable (κ : Type) where
  ncols : ℕ
  rows : List (κ × List (Option ℚ))
deriving DecidableEq

/-- model of `final_df.merge(r, on=group_keys, how="outer")`: left rows kept
(NaN-padded on the right when unmatched), then the right-only rows
NaN-padded on the left. -/
def outerMerge {κ : Type} [DecidableEq κ] (A B : FTable κ) : FTable κ :=
  ⟨A.ncols + B.ncols,
    (A.rows.flatMap (fun p =>
      match lookupRows B.rows p.1 with
      | [] => [(p.1, p.2 ++ List.replicate B.ncols none)]
      | ms => ms.map (fun m => (p.1, p.2 ++ m.2)))) ++
    ((B.rows.filter (fun m => decide (m.1 ∉ A.rows.map Prod.fst))).map
      (fun m => (m.1, List.replicate A.ncols none ++ m.2)))⟩

/-- the dataset loop of `compute_all_features` (`feature.py` lines 270-287):
datasets with an empty feature mapping are skipped; otherwise the dataset
is looked up (`datasets[dataset_name]`, a `KeyError` when absent) and its
features computed, aborting on the first error. -/
def gatherResults {κ : Type} [DecidableEq κ] (engine : String → Option (FMethod κ))
    (datasets : List (String × List (FRow κ))) :
    List (String × List (String × FeatureDef)) → Except EngErr (List (FTable κ))
  | [] => .ok []
  | (ds, cfg) :: rest =>
    if cfg = [] then gatherResults engine datasets rest
    else
      match datasets.find? (fun p => decide (p.1 = ds)) with
      | none => .error (.keyErr ds)
      | some p =>
        match compute_features engine p.2 cfg with
        | .error e => .error e
        | .ok t =>
          match gatherResults engine datasets rest with
          | .error e => .error e
          | .ok ts => .ok (⟨cfg.length, t⟩ :: ts)

/-- model of `compute_all_features` (`feature.py` lines 241-298): run the feature
engine per dataset, fail with `ValueError("No features computed. ...")`
when nothing was produced, else outer-merge all results pairwise. -/
def compute_all_features {κ : Type} [DecidableEq κ] (engine : String → Option (FMethod κ))
    (datasets : List (String × List (FRow κ)))
    (registry : List (String × List (String × FeatureDef))) : Except EngErr (FTable κ) :=
  match gatherResults engine datasets registry with
  | .error e => .error e
  | .ok [] => .error (.config "No features computed. Check your YAML registry.")
  | .ok (t :: ts) => .ok (ts.foldl outerMerge t)

/-! ### Concrete instances used by the closed theorems -/

/-- a group whose every row is credit-linked but whose position values
cancel to a zero denominator. -/
def exC1a : List (DRow ℕ) := [⟨0, "CRI", "E", some 5⟩, ⟨0, "CRI", "E", some (-5)⟩]

/-- a zero-denominator group with a nonzero credit-linked numerator. -/
def exC1b : List (DRow ℕ) := [⟨0, "CRI", "E", some 5⟩, ⟨0, "OUT", "E", some (-5)⟩]

/-- three groups: all-credit (denominator 4), no-credit (denominator 2),
and all-zero-or-NaN (denominator 0). -/
def exC1w : List (DRow ℕ) :=
  [⟨0, "CRI", "E1", some 3⟩, ⟨0, "CRI", "E2", some 1⟩, ⟨1, "OUT", "E1", some 2⟩,
   ⟨2, "OUT", "E1", none⟩, ⟨2, "OUT", "E2", some 0⟩]

/-- a single issuer holding a single position of value 0: non-negative
values with a zero group total. -/
def exC2a : List (DRow ℕ) := [⟨0, "X", "E1", some 0⟩]

/-- three groups: a single dominant issuer, two issuers with equal shares,
and three issuers with non-negative unequal values. -/
def exC2w : List (DRow ℕ) :=
  [⟨0, "X", "E1", some 3⟩, ⟨0, "X", "E1", some 4⟩,
   ⟨1, "X", "E1", some 2⟩, ⟨1, "X", "E2", some 2⟩,
   ⟨2, "X", "E1", some 1⟩, ⟨2, "X", "E2", some 2⟩, ⟨2, "X", "E3", some 3⟩]

/-- a two-group feature table: group "a" holds 1 and 3 and a NaN in
column x, group "b" a single 5. -/
noncomputable def tC3 : STable :=
  ⟨["x"],
   [⟨"a", fun c => if c = "x" then some 1 else none⟩,
    ⟨"a", fun c => if c = "x" then some 3 else none⟩,
    ⟨"a", fun _ => none⟩,
    ⟨"b", fun c => if c = "x" then some 5 else none⟩]⟩

/-- a one-row, one-column score-engine table. -/
noncomputable def sTbl8 : STable :=
  ⟨["a"], [⟨"g", fun c => if c = "a" then some 1 else none⟩]⟩

/-- a scored table with two tied top scores, a lower one, and a NaN row. -/
def tP4 : PTable :=
  ⟨["a"],
   [⟨fun c => if c = "a" then some 2 else none⟩,
    ⟨fun c => if c = "a" then some 2 else none⟩,
    ⟨fun c => if c = "a" then some 1 else none⟩,
    ⟨fun _ => none⟩]⟩

/-- profile weights: one present column, one absent. -/
def wsP4 : List (String × ℚ) := [("a", 1), ("zz", 5)]

/-- a table with one valued row and one NaN row. -/
def tP10 : PTable :=
  ⟨["a"], [⟨fun c => if c = "a" then some 7 else none⟩, ⟨fun _ => none⟩]⟩

/-- weights naming only an absent column. -/
def wsP10 : List (String × ℚ) := [("zz", 3)]

/-- whether a registry entry has kind `adjustment`. -/
def isAdjustmentKind {κ : Type} : FMethod κ → Bool
  | .adjustment _ => true
  | _ => false

/-- the ℚ-modelled fragment of `FEATURE_ENGINE` used by the concrete
instances: the `sum` and `max` aggregations, a stand-in row operation
(the kind of `isin` — only its kind matters here), a custom function
producing a table for key 0 only, and the `clip` / `coalesce` adjustments
(`feature.py` lines 159-238). -/
def demoEngine : String → Option (FMethod ℕ) := fun s =>
  if s = "sum" then some (.aggregation (fun l => some (l.filterMap id).sum))
  else if s = "max" then some (.aggregation (fun l => (l.filterMap id).max?))
  else if s = "flag" then
    some (.row_operation (fun c _ => some (if c = none then 0 else 1)))
  else if s = "only0" then some (.custom (fun _ _ => [(0, some 5)]))
  else if s = "clip" then some (.adjustment (fun c => c.map (fun q => min (max q 0) 1)))
  else if s = "coalesce" then some (.adjustment (fun c => some (c.getD 0)))
  else none

/-- a one-row dataset with key 0 and `x = 3`. -/
def dfF5 : List (FRow ℕ) := [⟨0, fun c => if c = "x" then some 3 else none⟩]

/-- a two-row dataset with keys 0 and 1. -/
def dfF7 : List (FRow ℕ) :=
  [⟨0, fun c => if c = "x" then some 3 else none⟩,
   ⟨1, fun c => if c = "x" then some 4 else none⟩]

/-- a second one-row dataset with key 1. -/
def dfF9b : List (FRow ℕ) := [⟨1, fun c => if c = "x" then some 4 else none⟩]

/-- two named datasets for the assembly witness. -/
def datasets9 : List (String × List (FRow ℕ)) := [("d1", dfF5), ("d2", dfF9b)]

/-- a registry with two one-feature datasets and one empty dataset. -/
def registry9 : List (String × List (String × FeatureDef)) :=
  [("d1", [("a", ⟨"sum", ["x"], []⟩)]), ("skip", []),
   ("d2", [("b", ⟨"sum", ["x"], []⟩)])]

/-! ### Theorems -/

/-- group sum of `value * is_credito` equals the group sum of `value` when
every non-NaN row is credit-linked. -/
theorem nanSum_indicator_all {κ : Type} [DecidableEq κ] (cl : List String)
    (l : List (DRow κ)) (h : ∀ r ∈ l, r.vl ≠ none → r.tp_aplic ∈ cl) :
    nanSum (l.map (fun r => r.vl.map (fun q => q * is_credito cl r)))
      = nanSum (l.map (fun r => r.vl)) := by
  induction l with
  | nil => rfl
  | cons r t ih =>
    have ht : ∀ x ∈ t, x.vl ≠ none → x.tp_aplic ∈ cl := fun x hx => h x (by simp [hx])
    cases hv : r.vl with
    | none => simp [nanSum, List.filterMap_cons, hv] at ih ⊢; exact ih ht
    | some q =>
      have hr : r.tp_aplic ∈ cl := h r (by simp) (by simp [hv])
      simp [nanSum, List.filterMap_cons, hv, is_credito, hr] at ih ⊢
      exact ih ht

/-- group sum of `value * is_credito` vanishes when no row is credit-linked. -/
theorem nanSum_indicator_none {κ : Type} [DecidableEq κ] (cl : List String)
    (l : List (DRow κ)) (h : ∀ r ∈ l, r.tp_aplic ∉ cl) :
    nanSum (l.map (fun r => r.vl.map (fun q => q * is_credito cl r))) = 0 := by
  induction l with
  | nil => rfl
  | cons r t ih =>
    have ht : ∀ x ∈ t, x.tp_aplic ∉ cl := fun x hx => h x (by simp [hx])
    have hr : r.tp_aplic ∉ cl := h r (by simp)
    cases hv : r.vl with
    | none => simp [nanSum, List.filterMap_cons, hv] at ih ⊢; exact ih ht
    | some q => simp [nanSum, List.filterMap_cons, hv, is_credito, hr] at ih ⊢; exact ih ht

/-- a pandas sum over one more cell: NaN contributes nothing, a value adds. -/
theorem nanSum_cons (x : Option ℚ) (l : List (Option ℚ)) :
    nanSum (x :: l) = x.getD 0 + nanSum l := by
  cases x <;> simp [nanSum, List.filterMap_cons]

/-- with non-negative position values the credit numerator is squeezed
between 0 and the denominator. -/
theorem nanSum_indicator_bounds {κ : Type} [DecidableEq κ] (cl : List String)
    (l : List (DRow κ)) (h : ∀ r ∈ l, ∀ q, r.vl = some q → 0 ≤ q) :
    0 ≤ nanSum (l.map (fun r => r.vl.map (fun q => q * is_credito cl r)))
    ∧ nanSum (l.map (fun r => r.vl.map (fun q => q * is_credito cl r)))
        ≤ nanSum (l.map (fun r => r.vl)) := by
  induction l with
  | nil => exact ⟨le_refl 0, le_refl 0⟩
  | cons r t ih =>
    obtain ⟨ih1, ih2⟩ := ih (fun x hx => h x (by simp [hx]))
    rw [List.map_cons, List.map_cons, nanSum_cons, nanSum_cons]
    cases hv : r.vl with
    | none => simpa [hv] using And.intro ih1 ih2
    | some q =>
      have hq : 0 ≤ q := h r (by simp) q hv
      have hind0 : 0 ≤ is_credito cl r := by unfold is_credito; split <;> norm_num
      have hind1 : is_credito cl r ≤ 1 := by unfold is_credito; split <;> norm_num
      have hmul0 : 0 ≤ q * is_credito cl r := mul_nonneg hq hind0
      have hmul1 : q * is_credito cl r ≤ q := by nlinarith
      simp only [hv, Option.map_some', Option.getD_some]
      exact ⟨by linarith, by linarith⟩

/-- Claim C1 (amended): the credit-share custom feature computes, per group,
`Σ(value · is_credito) / Σ(value)` with NaN values excluded from both
sums.  When the denominator is nonzero: a group whose every non-NaN row is
credit-linked yields 1.0, one with no credit-linked row yields 0.0.  A zero
denominator yields NaN when the numerator is also zero — in particular
whenever position values are non-negative — and never raises an error (the
function is total); with a nonzero numerator it yields a signed infinity
instead (see the counterexample). -/
theorem credito_share_behavior {κ : Type} [DecidableEq κ]
    (df : List (DRow κ)) (cl : List String) (k : κ) :
    (posDenom df k ≠ 0 → (∀ r ∈ groupRows df k, r.vl ≠ none → r.tp_aplic ∈ cl) →
      credito_share_feature_fn df cl k = .num 1)
  ∧ (posDenom df k ≠ 0 → (∀ r ∈ groupRows df k, r.tp_aplic ∉ cl) →
      credito_share_feature_fn df cl k = .num 0)
  ∧ (posDenom df k = 0 → creditoNum df cl k = 0 →
      credito_share_feature_fn df cl k = .nan)
  ∧ ((∀ r ∈ df, ∀ q, r.vl = some q → 0 ≤ q) → posDenom df k = 0 →
      credito_share_feature_fn df cl k = .nan) := by
  refine ⟨?_, ?_, ?_, ?_⟩
  · intro hd hall
    have hnum : creditoNum df cl k = posDenom df k :=
      nanSum_indicator_all cl (groupRows df k) hall
    simp [credito_share_feature_fn, fdiv, hnum, hd, div_self]
  · intro hd hnone
    have hnum : creditoNum df cl k = 0 :=
      nanSum_indicator_none cl (groupRows df k) hnone
    simp [credito_share_feature_fn, fdiv, hnum, hd]
  · intro hd hn
    simp [credito_share_feature_fn, fdiv, hd, hn]
  · intro hpos hd
    have hgrp : ∀ r ∈ groupRows df k, ∀ q, r.vl = some q → 0 ≤ q :=
      fun r hr => hpos r (List.mem_of_mem_filter hr)
    obtain ⟨h1, h2⟩ := nanSum_indicator_bounds cl (groupRows df k) hgrp
    have hn : creditoNum df cl k = 0 := by
      unfold creditoNum
      unfold posDenom at hd
      have := hd ▸ h2
      exact le_antisymm this h1
    simp [credito_share_feature_fn, fdiv, hd, hn]

/-- Claim C1 counterexample: on a group whose every row is credit-linked but
whose position values sum to zero the share is NaN, not 1.0; and on a
zero-denominator group with a nonzero numerator the share is `+∞`, not
NaN — refuting both the "result is 1.0" and the "zero denominator yields
NaN" conjuncts of the claim as stated. -/
theorem credito_share_c1_counterexample :
    (∀ r ∈ exC1a, r.vl ≠ none → r.tp_aplic ∈ ["CRI"])
  ∧ credito_share_feature_fn exC1a ["CRI"] 0 = .nan
  ∧ FVal.nan ≠ FVal.num 1
  ∧ posDenom exC1b 0 = 0
  ∧ credito_share_feature_fn exC1b ["CRI"] 0 = .pinf
  ∧ FVal.pinf ≠ FVal.nan := by
  refine ⟨by decide, ?_, by decide, ?_, ?_, by decide⟩
  · norm_num [credito_share_feature_fn, exC1a, creditoNum, posDenom, groupRows,
      nanSum, fdiv, is_credito, List.filterMap_cons]
  · norm_num [exC1b, posDenom, groupRows, nanSum, List.filterMap_cons]
  · norm_num [credito_share_feature_fn, exC1b, creditoNum, posDenom, groupRows,
      nanSum, fdiv, is_credito, List.filterMap_cons, show ¬("OUT" = "CRI") by decide]

/-- Claim C1 witness: the amended theorem applied to a concrete table with an
all-credit group (share 1), a no-credit group (share 0) and an
all-zero-or-NaN group (share NaN). -/
theorem credito_share_c1_witness :
    (credito_share_feature_fn exC1w ["CRI"] 0 = .num 1)
  ∧ (credito_share_feature_fn exC1w ["CRI"] 1 = .num 0)
  ∧ (credito_share_feature_fn exC1w ["CRI"] 2 = .nan) :=
  ⟨(credito_share_behavior exC1w ["CRI"] 0).1
      (by norm_num [exC1w, posDenom, groupRows, nanSum, List.filterMap_cons]) (by decide),
   (credito_share_behavior exC1w ["CRI"] 1).2.1
      (by norm_num [exC1w, posDenom, groupRows, nanSum, List.filterMap_cons]) (by decide),
   (credito_share_behavior exC1w ["CRI"] 2).2.2.2 (by decide)
      (by norm_num [exC1w, posDenom, groupRows, nanSum, List.filterMap_cons])⟩

/-- a pandas sum over non-negative cells is non-negative. -/
theorem nanSum_nonneg (l : List (Option ℚ)) (h : ∀ x ∈ l, ∀ q, x = some q → 0 ≤ q) :
    0 ≤ nanSum l := by
  induction l with
  | nil => simp [nanSum]
  | cons x t ih =>
    rw [nanSum_cons]
    have ht := ih (fun y hy => h y (by simp [hy]))
    cases x with
    | none => simpa using ht
    | some q =>
      have hq : 0 ≤ q := h (some q) (by simp) q rfl
      simp only [Option.getD_some]
      linarith

/-- deduplication of a nonempty constant list. -/
theorem dedup_const {α : Type} [DecidableEq α] (l : List α) (e : α) (hne : l ≠ [])
    (h : ∀ x ∈ l, x = e) : l.dedup = [e] := by
  induction l with
  | nil => cases hne rfl
  | cons a t ih =>
    have ha : a = e := h a (by simp)
    subst ha
    by_cases ht : t = []
    · subst ht; simp
    · have hd := ih ht (fun x hx => h x (by simp [hx]))
      have hmem : a ∈ t := by
        cases t with
        | nil => cases ht rfl
        | cons b t2 =>
          have hb : b = a := h b (by simp)
          simp [hb]
      rw [List.dedup_cons_of_mem hmem]
      exact hd

/-- a non-negative term is at most the sum over a list containing it. -/
theorem le_sum_map_of_mem {α : Type} [DecidableEq α] (l : List α) (f : α → ℚ) (e : α)
    (he : e ∈ l) (h : ∀ x ∈ l, 0 ≤ f x) : f e ≤ (l.map f).sum := by
  have hperm : List.Perm (l.map f) ((e :: l.erase e).map f) :=
    (List.perm_cons_erase he).map f
  rw [hperm.sum_eq]
  simp only [List.map_cons, List.sum_cons]
  have h0 : 0 ≤ ((l.erase e).map f).sum := by
    apply List.sum_nonneg
    intro x hx
    obtain ⟨a, ha, rfl⟩ := List.mem_map.1 hx
    exact h a (List.mem_of_mem_erase ha)
  linarith

/-- division distributes over a list sum. -/
theorem sum_map_div {α : Type} (l : List α) (f : α → ℚ) (d : ℚ) :
    (l.map (fun x => f x / d)).sum = (l.map f).sum / d := by
  induction l with
  | nil => simp
  | cons a t ih => simp [List.sum_cons, ih, add_div]

/-- the model of `np.sum` over a list of finite values is the plain sum. -/
theorem npSum_map_num {α : Type} (l : List α) (g : α → ℚ) :
    npSum (l.map (fun x => FVal.num (g x))) = .num ((l.map g).sum) := by
  unfold npSum
  rw [if_neg, if_neg]
  · congr 1
    rw [List.filterMap_map]
    have hc : (FVal.toNum ∘ fun x => FVal.num (g x)) = some ∘ g := rfl
    rw [hc, List.filterMap_eq_map]
  · simp [List.any_map, Function.comp, FVal.isInf]
  · simp [List.any_map, Function.comp, FVal.isNan]

/-- Claim C2 (amended): per group, the HHI feature sums position value per
issuer, weights each issuer by its share of the group total, and returns
the sum of squared weights.  With a *nonzero* group total: a single issuer
yields 1.0, `n` issuers of equal nonzero shares yield `1/n`, and
non-negative position values put the result in `[0, 1]`.  With a zero
group total (e.g. all position values zero or NaN) the result is NaN (see
the counterexample). -/
theorem hhi_behavior {κ : Type} [DecidableEq κ] (df : List (DRow κ)) (k : κ)
    (e : String) (s : ℚ) :
    (groupRows df k ≠ [] → (∀ r ∈ groupRows df k, r.emissor = e) →
      groupTotal df k ≠ 0 → hhi_feature_fn df k = .num 1)
  ∧ ((∀ x ∈ issuersOf df k, issuerPos df k x = s) → s ≠ 0 → issuersOf df k ≠ [] →
      hhi_feature_fn df k = .num (1 / ((issuersOf df k).length : ℚ)))
  ∧ ((∀ r ∈ df, ∀ q, r.vl = some q → 0 ≤ q) → groupTotal df k ≠ 0 →
      ∃ h, hhi_feature_fn df k = .num h ∧ 0 ≤ h ∧ h ≤ 1) := by
  refine ⟨?_, ?_, ?_⟩
  · intro hne hall ht
    have hiss : issuersOf df k = [e] := by
      unfold issuersOf
      refine dedup_const _ e (by simpa using hne) ?_
      intro x hx
      obtain ⟨r, hr, rfl⟩ := List.mem_map.1 hx
      exact hall r hr
    have htot : groupTotal df k = issuerPos df k e := by
      unfold groupTotal; rw [hiss]; simp
    unfold hhi_feature_fn issuerWeight
    rw [hiss]
    simp only [List.map_cons, List.map_nil]
    rw [← htot]
    simp only [fdiv, if_neg ht, div_self ht]
    simp [npSum, FVal.sq, FVal.isNan, FVal.isInf, FVal.toNum]
  · intro hall hs hne
    set es := issuersOf df k with hes
    have hlen : (0 : ℚ) < (es.length : ℚ) := by
      have : 0 < es.length := List.length_pos.2 hne
      exact_mod_cast this
    have hlen0 : ((es.length : ℚ)) ≠ 0 := ne_of_gt hlen
    have htot : groupTotal df k = (es.length : ℚ) * s := by
      unfold groupTotal
      rw [← hes]
      have : es.map (fun x => issuerPos df k x) = es.map (fun _ => s) :=
        List.map_congr_left (fun x hx => hall x hx)
      rw [this, List.map_const', List.sum_replicate, nsmul_eq_mul]
    have ht0 : groupTotal df k ≠ 0 := by
      rw [htot]; exact mul_ne_zero hlen0 hs
    have hw : ∀ x ∈ es, (issuerWeight df k x).sq
        = FVal.num ((1 / (es.length : ℚ)) * (1 / (es.length : ℚ))) := by
      intro x hx
      unfold issuerWeight
      rw [hall x hx, htot, fdiv, if_neg (mul_ne_zero hlen0 hs)]
      have : s / ((es.length : ℚ) * s) = 1 / (es.length : ℚ) := by
        field_simp
        ring
      rw [FVal.sq, this]
    unfold hhi_feature_fn
    rw [← hes, List.map_congr_left hw]
    rw [npSum_map_num es (fun _ => (1 / (es.length : ℚ)) * (1 / (es.length : ℚ)))]
    rw [List.map_const', List.sum_replicate, nsmul_eq_mul]
    congr 1
    field_simp
  · intro hpos ht
    have hposg : ∀ x ∈ issuersOf df k, 0 ≤ issuerPos df k x := by
      intro x hx
      apply nanSum_nonneg
      intro c hc q hcq
      obtain ⟨r, hr, rfl⟩ := List.mem_map.1 hc
      exact hpos r (List.mem_of_mem_filter (List.mem_of_mem_filter hr)) q hcq
    have htpos : 0 < groupTotal df k := by
      rcases lt_or_eq_of_le (List.sum_nonneg (fun x hx => by
        obtain ⟨a, ha, rfl⟩ := List.mem_map.1 hx
        exact hposg a ha)) with hlt | heq
      · exact hlt
      · exact absurd heq.symm ht
    refine ⟨((issuersOf df k).map
      (fun x => (issuerPos df k x / groupTotal df k)
        * (issuerPos df k x / groupTotal df k))).sum, ?_, ?_, ?_⟩
    · unfold hhi_feature_fn
      have hw : ∀ x ∈ issuersOf df k, (issuerWeight df k x).sq
          = FVal.num ((issuerPos df k x / groupTotal df k)
              * (issuerPos df k x / groupTotal df k)) := by
        intro x hx
        unfold issuerWeight
        rw [fdiv, if_neg ht, FVal.sq]
      rw [List.map_congr_left hw]
      have := npSum_map_num (issuersOf df k)
        (fun x => (issuerPos df k x / groupTotal df k)
          * (issuerPos df k x / groupTotal df k))
      exact this
    · apply List.sum_nonneg
      intro x hx
      obtain ⟨a, ha, rfl⟩ := List.mem_map.1 hx
      exact mul_self_nonneg _
    · have hwle : ∀ x ∈ issuersOf df k,
          (issuerPos df k x / groupTotal df k) * (issuerPos df k x / groupTotal df k)
            ≤ issuerPos df k x / groupTotal df k := by
        intro x hx
        have h0 : 0 ≤ issuerPos df k x / groupTotal df k :=
          div_nonneg (hposg x hx) (le_of_lt htpos)
        have h1 : issuerPos df k x / groupTotal df k ≤ 1 := by
          rw [div_le_one htpos]
          exact le_sum_map_of_mem _ _ x hx hposg
        nlinarith
      calc ((issuersOf df k).map
            (fun x => (issuerPos df k x / groupTotal df k)
              * (issuerPos df k x / groupTotal df k))).sum
          ≤ ((issuersOf df k).map
            (fun x => issuerPos df k x / groupTotal df k)).sum :=
            List.sum_le_sum hwle
        _ = 1 := by
            rw [sum_map_div]
            unfold groupTotal
            exact div_self ht

/-- Claim C2 counterexample: a group holding a single position of value 0 has
non-negative position values, yet its HHI is NaN (0/0 weight), which is not
a number in `[0, 1]` — refuting the claim's range statement as stated. -/
theorem hhi_c2_counterexample :
    (∀ r ∈ exC2a, ∀ q, r.vl = some q → 0 ≤ q)
  ∧ hhi_feature_fn exC2a 0 = .nan
  ∧ (∀ q : ℚ, FVal.nan ≠ .num q) := by
  refine ⟨by decide, ?_, fun q h => by cases h⟩
  simp [hhi_feature_fn, issuersOf, issuerPos, groupTotal, issuerWeight,
    groupRows, nanSum, fdiv, npSum, FVal.sq, FVal.isNan, FVal.isInf, exC2a,
    List.dedup_cons_of_not_mem]

/-- Claim C2 witness: the amended theorem applied to a concrete table with a
single-issuer group (HHI 1), a two-equal-issuer group (HHI 1/2) and a
non-negative three-issuer group (HHI in `[0, 1]`). -/
theorem hhi_c2_witness :
    hhi_feature_fn exC2w 0 = .num 1
  ∧ hhi_feature_fn exC2w 1 = .num (1 / 2)
  ∧ (∃ h, hhi_feature_fn exC2w 2 = .num h ∧ 0 ≤ h ∧ h ≤ 1) := by
  refine ⟨?_, ?_, ?_⟩
  · exact (hhi_behavior exC2w 0 "E1" 0).1 (by decide) (by decide)
      (by
        simp [groupTotal, issuersOf, issuerPos, groupRows, nanSum,
          List.dedup_cons_of_not_mem, List.dedup_cons_of_mem, exC2w]
        norm_num)
  · have h := (hhi_behavior exC2w 1 "E1" 2).2.1
      (by simp [issuersOf, issuerPos, groupRows, nanSum,
        List.dedup_cons_of_not_mem, List.dedup_cons_of_mem, exC2w])
      (by norm_num)
      (by simp [issuersOf, groupRows, exC2w,
        List.dedup_cons_of_not_mem, List.dedup_cons_of_mem])
    rw [h]
    simp [issuersOf, groupRows, exC2w, List.dedup_cons_of_not_mem,
      List.dedup_cons_of_mem]
  · exact (hhi_behavior exC2w 2 "E1" 0).2.2 (by decide)
      (by
        simp [groupTotal, issuersOf, issuerPos, groupRows, nanSum,
          List.dedup_cons_of_not_mem, List.dedup_cons_of_mem, exC2w]
        norm_num)

/-- the present entries of an elementwise-mapped column. -/
theorem presentR_map (φ : ℝ → ℝ) (l : List (Option ℝ)) :
    presentR (l.map (Option.map φ)) = (presentR l).map φ := by
  induction l with
  | nil => rfl
  | cons x t ih =>
    cases x with
    | none => simpa [presentR, List.filterMap_cons] using ih
    | some y =>
      simp only [presentR, List.filterMap_cons] at ih ⊢
      simp [ih]

/-- shifting every entry by a constant shifts the sum. -/
theorem sum_map_sub_const (xs : List ℝ) (c : ℝ) :
    (xs.map (fun x => x - c)).sum = xs.sum - xs.length * c := by
  induction xs with
  | nil => simp
  | cons a t ih =>
    simp only [List.map_cons, List.sum_cons, List.length_cons, ih]
    push_cast
    ring

/-- division by a constant distributes over a real list sum. -/
theorem sum_map_div_real {α : Type} (l : List α) (f : α → ℝ) (d : ℝ) :
    (l.map (fun x => f x / d)).sum = (l.map f).sum / d := by
  induction l with
  | nil => simp
  | cons a t ih => simp [List.sum_cons, ih, add_div]

/-- the deviations from the mean sum to zero. -/
theorem sum_sub_mean (xs : List ℝ) (hne : xs ≠ []) :
    (xs.map (fun x => x - xs.sum / xs.length)).sum = 0 := by
  have hlen : (xs.length : ℝ) ≠ 0 := by
    have : 0 < xs.length := List.length_pos.2 hne
    positivity
  rw [sum_map_sub_const]
  field_simp

/-- Claim C3: on a z-score definition (no adjustments) whose source feature
is present, the score engine succeeds and within any group of row count
greater than one and of well-defined nonzero variance, every score cell is
`(x − group mean) / (group std + 1e-6)` (NaN cells stay NaN), and the
pandas mean of the group's score column is exactly 0. -/
theorem zscore_group_props (t : STable) (name f g : String)
    (hf : f ∈ t.cols)
    (_hn : 1 < (t.rows.filter (fun r => decide (r.grp = g))).length)
    (v : ℝ) (hv : svar (colIn t.rows f g) = some v) (_hv0 : v ≠ 0) :
    ∃ out m sd,
      compute_scores_from_df t [(name, ⟨some "zscore", some f, []⟩)] = .ok out
      ∧ smean (colIn t.rows f g) = some m
      ∧ sstd (colIn t.rows f g) = some sd
      ∧ (out.rows.filter (fun r => decide (r.grp = g))).map (fun r => r.vals name)
          = (colIn t.rows f g).map (Option.map (fun x => (x - m) / (sd + eps)))
      ∧ smean ((out.rows.filter (fun r => decide (r.grp = g))).map (fun r => r.vals name))
          = some 0 := by
  have hlen2 : ¬ (presentR (colIn t.rows f g)).length < 2 := by
    intro hc
    rw [svar, if_pos hc] at hv
    cases hv
  have hpne : presentR (colIn t.rows f g) ≠ [] := by
    intro hc
    exact hlen2 (by rw [hc]; norm_num)
  have hm : smean (colIn t.rows f g)
      = some ((presentR (colIn t.rows f g)).sum / (presentR (colIn t.rows f g)).length) := by
    rw [smean, if_neg hpne]
  have hsd : sstd (colIn t.rows f g) = some (Real.sqrt v) := by
    rw [sstd, hv, Option.map_some']
  set m := (presentR (colIn t.rows f g)).sum / (presentR (colIn t.rows f g)).length with hmdef
  set sd := Real.sqrt v with hsddef
  set out := saddCol t name (fun r => transformZ t.rows f r) with hout
  have hcomp : compute_scores_from_df t [(name, ⟨some "zscore", some f, []⟩)] = .ok out := by
    simp [compute_scores_from_df, scoreOne, hf, hout]
  have hfilter : out.rows.filter (fun r => decide (r.grp = g))
      = (t.rows.filter (fun r => decide (r.grp = g))).map
          (fun r => ⟨r.grp, fun c => if c = name then transformZ t.rows f r else r.vals c⟩) := by
    rw [hout]
    show (t.rows.map _).filter _ = _
    rw [List.filter_map]
    rfl
  have htz : ∀ r ∈ t.rows.filter (fun r => decide (r.grp = g)),
      transformZ t.rows f r = (r.vals f).map (fun x => (x - m) / (sd + eps)) := by
    intro r hr
    have hg : r.grp = g := by
      have := (List.mem_filter.1 hr).2
      simpa using this
    rw [transformZ, hg, hm, hsd]
  have hcol : (out.rows.filter (fun r => decide (r.grp = g))).map (fun r => r.vals name)
      = (colIn t.rows f g).map (Option.map (fun x => (x - m) / (sd + eps))) := by
    rw [hfilter, List.map_map, colIn, List.map_map]
    refine List.map_congr_left ?_
    intro r hr
    show (if name = name then transformZ t.rows f r else r.vals name)
        = Option.map (fun x => (x - m) / (sd + eps)) (r.vals f)
    rw [if_pos rfl, htz r hr]
  refine ⟨out, m, sd, hcomp, hm, hsd, hcol, ?_⟩
  rw [hcol]
  have hpres : presentR ((colIn t.rows f g).map (Option.map (fun x => (x - m) / (sd + eps))))
      = (presentR (colIn t.rows f g)).map (fun x => (x - m) / (sd + eps)) :=
    presentR_map _ _
  have hpne2 : (presentR (colIn t.rows f g)).map (fun x => (x - m) / (sd + eps)) ≠ [] := by
    simpa using hpne
  have hsum : ((presentR (colIn t.rows f g)).map (fun x => (x - m) / (sd + eps))).sum = 0 := by
    have hstep : ((presentR (colIn t.rows f g)).map (fun x => (x - m) / (sd + eps))).sum
        = ((presentR (colIn t.rows f g)).map (fun x => x - m)).sum / (sd + eps) := by
      rw [← sum_map_div_real (presentR (colIn t.rows f g)) (fun x => x - m) (sd + eps)]
    rw [hstep, hmdef, sum_sub_mean _ hpne, zero_div]
  rw [smean, if_neg (by rw [hpres]; exact hpne2), hpres, hsum, zero_div]

/-- Claim C3 witness: the z-score theorem applied to a concrete table whose
group "a" has three rows (one NaN) and variance 2. -/
theorem zscore_c3_witness :
    ∃ out m sd,
      compute_scores_from_df tC3 [("s", ⟨some "zscore", some "x", []⟩)] = .ok out
      ∧ smean (colIn tC3.rows "x" "a") = some m
      ∧ sstd (colIn tC3.rows "x" "a") = some sd
      ∧ (out.rows.filter (fun r => decide (r.grp = "a"))).map (fun r => r.vals "s")
          = (colIn tC3.rows "x" "a").map (Option.map (fun x => (x - m) / (sd + eps)))
      ∧ smean ((out.rows.filter (fun r => decide (r.grp = "a"))).map (fun r => r.vals "s"))
          = some 0 := by
  have hcol : colIn tC3.rows "x" "a" = [some 1, some 3, none] := by
    simp [colIn, tC3]
  refine zscore_group_props tC3 "s" "x" "a" (by decide) ?_ 2 ?_ (by norm_num)
  · simp [tC3]
  · rw [hcol]
    simp [svar, presentR, List.filterMap_cons]
    norm_num

/-- the assigned column name is always among the output columns. -/
theorem saddCol_cols_mem (t : STable) (name : String) (f : SRow → Option ℝ) :
    name ∈ (saddCol t name f).cols := by
  rw [saddCol]
  dsimp only
  split
  · assumption
  · simp

/-- assigning an all-NaN column makes every cell of it NaN. -/
theorem saddCol_vals_const_none (t : STable) (name : String) :
    ∀ r ∈ (saddCol t name (fun _ => none)).rows, r.vals name = none := by
  intro r hr
  rw [saddCol] at hr
  obtain ⟨r0, _, rfl⟩ := List.mem_map.1 hr
  simp

/-- a z-score definition whose source feature is absent (or missing from
the args) assigns an all-NaN column, whatever its adjustments. -/
theorem scoreOne_absent (t : STable) (name : String) (cfg : ScoreCfg)
    (hty : cfg.type = some "zscore")
    (habs : ∀ f, cfg.feature = some f → f ∉ t.cols) :
    scoreOne t name cfg = .ok (saddCol t name (fun _ => none)) := by
  unfold scoreOne
  rw [if_pos hty]
  rcases hfe : cfg.feature with _ | f
  · simp only [hfe]
  · simp only [hfe]
    rw [if_neg (habs f hfe)]

/-- a score definition of any other type raises the unsupported-type error. -/
theorem scoreOne_unsupported (t : STable) (name : String) (cfg : ScoreCfg)
    (hty : cfg.type ≠ some "zscore") :
    scoreOne t name cfg = .error (.config (errUnsupported cfg.type)) := by
  unfold scoreOne
  rw [if_neg hty]

/-- a z-score definition never raises. -/
theorem scoreOne_zscore_ok (t : STable) (name : String) (cfg : ScoreCfg)
    (hty : cfg.type = some "zscore") : ∃ t2, scoreOne t name cfg = .ok t2 := by
  unfold scoreOne
  rw [if_pos hty]
  rcases hfe : cfg.feature with _ | f
  · simp only [hfe]
    exact ⟨_, rfl⟩
  · simp only [hfe]
    by_cases hc : f ∈ t.cols
    · rw [if_pos hc]
      exact ⟨_, rfl⟩
    · rw [if_neg hc]
      exact ⟨_, rfl⟩

/-- Claim C8: (i) a z-score definition whose source feature column is absent
from the table (including a missing `feature` argument) succeeds and
fills its score column entirely with NaN, whatever invert/coalesce
adjustments it lists; (ii) a registry containing any definition whose type
is not "zscore" makes the whole call fail with the `ValueError` naming an
unsupported type (the first such definition's). -/
theorem score_engine_error_contract :
    (∀ (t : STable) (name : String) (cfg : ScoreCfg),
        cfg.type = some "zscore" →
        (∀ f, cfg.feature = some f → f ∉ t.cols) →
        ∃ out, compute_scores_from_df t [(name, cfg)] = .ok out
          ∧ name ∈ out.cols
          ∧ ∀ r ∈ out.rows, r.vals name = none)
  ∧ (∀ (reg : List (String × ScoreCfg)) (t : STable) (n : String) (cfg : ScoreCfg),
        (n, cfg) ∈ reg → cfg.type ≠ some "zscore" →
        ∃ (n2 : String) (c2 : ScoreCfg), (n2, c2) ∈ reg ∧ c2.type ≠ some "zscore"
          ∧ compute_scores_from_df t reg = .error (.config (errUnsupported c2.type))) := by
  constructor
  · intro t name cfg hty habs
    refine ⟨saddCol t name (fun _ => none), ?_, saddCol_cols_mem t name _,
      saddCol_vals_const_none t name⟩
    show compute_scores_from_df t [(name, cfg)] = _
    rw [compute_scores_from_df, scoreOne_absent t name cfg hty habs]
    rfl
  · intro reg
    induction reg with
    | nil =>
      intro t n cfg h
      cases h
    | cons hd rest ih =>
      obtain ⟨n0, c0⟩ := hd
      intro t n cfg hmem hty
      by_cases hhd : c0.type = some "zscore"
      · obtain ⟨t2, ht2⟩ := scoreOne_zscore_ok t n0 c0 hhd
        have hmem2 : (n, cfg) ∈ rest := by
          rcases List.mem_cons.1 hmem with heq | h
          · exfalso
            apply hty
            rw [show cfg = c0 from congrArg Prod.snd heq]
            exact hhd
          · exact h
        obtain ⟨n2, c2, hm2, hty2, hres⟩ := ih t2 n cfg hmem2 hty
        refine ⟨n2, c2, List.mem_cons_of_mem _ hm2, hty2, ?_⟩
        rw [compute_scores_from_df, ht2]
        exact hres
      · refine ⟨n0, c0, List.mem_cons_self _ _, hhd, ?_⟩
        rw [compute_scores_from_df, scoreOne_unsupported t n0 c0 hhd]

/-- Claim C8 witness: the error contract applied to a z-score definition
naming an absent feature (with invert and coalesce listed) and to a
registry with an unsupported score type. -/
theorem score_engine_c8_witness :
    (∃ out, compute_scores_from_df sTbl8
        [("s", ⟨some "zscore", some "missing", ["invert", "coalesce"]⟩)] = .ok out
      ∧ "s" ∈ out.cols ∧ ∀ r ∈ out.rows, r.vals "s" = none)
  ∧ (∃ (n2 : String) (c2 : ScoreCfg),
        (n2, c2) ∈ [("s2", (⟨some "rank", none, []⟩ : ScoreCfg))]
      ∧ c2.type ≠ some "zscore"
      ∧ compute_scores_from_df sTbl8 [("s2", ⟨some "rank", none, []⟩)]
          = .error (.config (errUnsupported c2.type))) :=
  ⟨score_engine_error_contract.1 sTbl8 "s" ⟨some "zscore", some "missing", ["invert", "coalesce"]⟩
      rfl (by
        intro f h
        injection h with h2
        subst h2
        decide),
   score_engine_error_contract.2 [("s2", ⟨some "rank", none, []⟩)] sTbl8 "s2"
      ⟨some "rank", none, []⟩ (by simp) (by decide)⟩

/-- the score and rank column names of a profile never collide. -/
theorem score_ne_rank (p : String) : ("score_" ++ p) ≠ ("rank_" ++ p) := by
  intro h
  have hd : ("score_" ++ p).data = ("rank_" ++ p).data := congrArg String.data h
  rw [String.data_append, String.data_append] at hd
  exact absurd (List.append_cancel_right hd) (by decide)

/-- the two weighted-sum folds (running sum with lookup vs mapped terms)
agree. -/
theorem wscore_foldl_eq (r : PRow) (l : List (String × ℚ)) (acc : Option ℚ) :
    l.foldl (fun acc p =>
        match acc, r.vals p.1 with
        | some a, some v => some (a + v * p.2)
        | _, _ => none) acc
      = (l.map (fun p => (r.vals p.1).map (fun v => v * p.2))).foldl
          (fun acc c =>
            match acc, c with
            | some a, some v => some (a + v)
            | _, _ => none) acc := by
  induction l generalizing acc with
  | nil => rfl
  | cons a t ih =>
    simp only [List.foldl_cons, List.map_cons]
    rw [ih]
    congr 1
    cases acc with
    | none => rfl
    | some x => cases r.vals a.1 <;> rfl

/-- the engine's weighted score is the spec's Σ(value × weight) over the
weights whose key is a present column. -/
theorem wscore_eq_spec (cols : List String) (ws : List (String × ℚ)) (r : PRow) :
    wscore cols ws r = specWeightedScore cols ws r := by
  unfold wscore specWeightedScore
  by_cases h : ws.filter (fun p => decide (p.1 ∈ cols)) = []
  · rw [if_pos h, h]
    rfl
  · rw [if_neg h]
    exact wscore_foldl_eq r _ (some 0)

/-- weights on absent columns are silently dropped: filtering them away
does not change the weighted score. -/
theorem wscore_filter_eq (cols : List String) (ws : List (String × ℚ)) (r : PRow) :
    wscore cols ws r = wscore cols (ws.filter (fun q => decide (q.1 ∈ cols))) r := by
  unfold wscore
  rw [List.filter_filter]
  simp only [Bool.and_self]

/-- applying `denseRank` to a present value counts the distinct values
above it. -/
theorem denseRank_some (scores : List (Option ℚ)) (v : ℚ) :
    denseRank scores (some v) = 1 + distinctAbove scores v := rfl

/-- the dense rank of a present maximal score is 1. -/
theorem denseRank_max (scores : List (Option ℚ)) (v : ℚ)
    (hmax : ∀ w, some w ∈ scores → w ≤ v) :
    denseRank scores (some v) = 1 := by
  rw [denseRank_some, distinctAbove]
  have hempty : (scores.filterMap id).toFinset.filter (fun w => v < w) = ∅ := by
    apply Finset.filter_eq_empty_iff.2
    intro w hw
    rw [List.mem_toFinset, List.mem_filterMap] at hw
    obtain ⟨a, ha, hau⟩ := hw
    have hws : some w ∈ scores := by
      have hav : a = some w := hau
      rw [← hav]
      exact ha
    exact not_lt.2 (hmax w hws)
  rw [hempty]
  simp

/-- descending dense ranks have no gaps: the next distinct lower score
ranks exactly one further. -/
theorem denseRank_succ (scores : List (Option ℚ)) (v w : ℚ)
    (hv : some v ∈ scores) (hlt : w < v)
    (hbetween : ∀ u, some u ∈ scores → ¬(w < u ∧ u < v)) :
    denseRank scores (some w) = denseRank scores (some v) + 1 := by
  rw [denseRank_some, denseRank_some, distinctAbove, distinctAbove]
  have hset : (scores.filterMap id).toFinset.filter (fun u => w < u)
      = insert v ((scores.filterMap id).toFinset.filter (fun u => v < u)) := by
    ext u
    simp only [Finset.mem_filter, Finset.mem_insert, List.mem_toFinset, List.mem_filterMap]
    constructor
    · rintro ⟨⟨a, ha, hau⟩, hwu⟩
      have hu : some u ∈ scores := by
        have hav : a = some u := hau
        rw [← hav]
        exact ha
      by_cases huv : u = v
      · exact Or.inl huv
      · right
        refine ⟨⟨a, ha, hau⟩, ?_⟩
        rcases lt_trichotomy u v with h1 | h2 | h3
        · exact absurd ⟨hwu, h1⟩ (hbetween u hu)
        · exact absurd h2 huv
        · exact h3
    · rintro (rfl | ⟨⟨a, ha, hau⟩, hvu⟩)
      · exact ⟨⟨some u, hv, rfl⟩, hlt⟩
      · exact ⟨⟨a, ha, hau⟩, lt_trans hlt hvu⟩
  rw [hset, Finset.card_insert_of_not_mem (by simp)]
  omega

/-- the assigned column name is among the policy output columns. -/
theorem paddCol_cols_mem (t : PTable) (name : String) (f : PRow → Option ℚ) :
    name ∈ (paddCol t name f).cols := by
  rw [paddCol]
  dsimp only
  split
  · assumption
  · simp

/-- assignment keeps existing columns. -/
theorem paddCol_cols_subset (t : PTable) (name : String) (f : PRow → Option ℚ)
    (c : String) (h : c ∈ t.cols) : c ∈ (paddCol t name f).cols := by
  rw [paddCol]
  dsimp only
  split
  · exact h
  · exact List.mem_append_left _ h

/-- reading a whole column after an assignment: the assigned name reads
the new values, any other name reads through. -/
theorem paddCol_rows_map (t : PTable) (name : String) (f : PRow → Option ℚ) (c : String) :
    (paddCol t name f).rows.map (fun r => r.vals c)
      = if c = name then t.rows.map f else t.rows.map (fun r => r.vals c) := by
  rw [paddCol]
  dsimp only
  rw [List.map_map]
  by_cases h : c = name
  · rw [if_pos h]
    refine List.map_congr_left ?_
    intro r _
    dsimp only [Function.comp]
    rw [if_pos h]
  · rw [if_neg h]
    refine List.map_congr_left ?_
    intro r _
    dsimp only [Function.comp]
    rw [if_neg h]

/-- the score and rank columns appended by one profile iteration, read as
whole columns. -/
theorem profileStep_cols (t : PTable) (p : String) (ws : List (String × ℚ)) :
    (profileStep t p ws).rows.map (fun r => r.vals ("score_" ++ p))
        = t.rows.map (wscore t.cols ws)
  ∧ (profileStep t p ws).rows.map (fun r => r.vals ("rank_" ++ p))
        = (t.rows.map (wscore t.cols ws)).map
            (fun s => some ((denseRank (t.rows.map (wscore t.cols ws)) s : ℕ) : ℚ))
  ∧ ("score_" ++ p) ∈ (profileStep t p ws).cols
  ∧ ("rank_" ++ p) ∈ (profileStep t p ws).cols := by
  refine ⟨?_, ?_, ?_, ?_⟩
  · rw [profileStep, paddCol_rows_map, if_neg (score_ne_rank p), paddCol_rows_map,
      if_pos rfl]
  · rw [profileStep, paddCol_rows_map, if_pos rfl]
    show (paddCol t ("score_" ++ p) (wscore t.cols ws)).rows.map _ = _
    rw [paddCol]
    dsimp only
    rw [List.map_map, List.map_map]
    refine List.map_congr_left ?_
    intro r _
    dsimp only [Function.comp]
    rw [if_pos rfl]
  · exact paddCol_cols_subset _ _ _ _ (paddCol_cols_mem t _ _)
  · exact paddCol_cols_mem _ _ _

/-- Claim C4: for a profile, the engine appends a weighted-score column
equal to the spec formula Σ(value × weight) restricted to present columns
(absent weight keys silently dropped), and a rank column that dense-ranks
the whole table descending by that score: a maximal present score ranks 1,
the next distinct lower score ranks exactly one further (ties share a rank
because the rank is a function of the score value alone), NaN scores rank
0, present scores rank at least 1, and every rank cell is a natural
number. -/
theorem policy_rank_props (t : PTable) (p : String) (ws : List (String × ℚ)) :
    (∀ r : PRow, wscore t.cols ws r = specWeightedScore t.cols ws r)
  ∧ (∀ r : PRow, wscore t.cols ws r
      = wscore t.cols (ws.filter (fun q => decide (q.1 ∈ t.cols))) r)
  ∧ ("score_" ++ p) ∈ (compute_profile_scores_from_df t [(p, ws)]).cols
  ∧ ("rank_" ++ p) ∈ (compute_profile_scores_from_df t [(p, ws)]).cols
  ∧ (compute_profile_scores_from_df t [(p, ws)]).rows.map (fun r => r.vals ("score_" ++ p))
      = t.rows.map (wscore t.cols ws)
  ∧ (compute_profile_scores_from_df t [(p, ws)]).rows.map (fun r => r.vals ("rank_" ++ p))
      = (t.rows.map (wscore t.cols ws)).map
          (fun s => some ((denseRank (t.rows.map (wscore t.cols ws)) s : ℕ) : ℚ))
  ∧ denseRank (t.rows.map (wscore t.cols ws)) none = 0
  ∧ (∀ v : ℚ, (∀ w, some w ∈ t.rows.map (wscore t.cols ws) → w ≤ v) →
      denseRank (t.rows.map (wscore t.cols ws)) (some v) = 1)
  ∧ (∀ v w : ℚ, some v ∈ t.rows.map (wscore t.cols ws) → w < v →
      (∀ u, some u ∈ t.rows.map (wscore t.cols ws) → ¬(w < u ∧ u < v)) →
      denseRank (t.rows.map (wscore t.cols ws)) (some w)
        = denseRank (t.rows.map (wscore t.cols ws)) (some v) + 1)
  ∧ (∀ v : ℚ, 1 ≤ denseRank (t.rows.map (wscore t.cols ws)) (some v))
  ∧ (∀ r ∈ (compute_profile_scores_from_df t [(p, ws)]).rows,
      ∃ nn : ℕ, r.vals ("rank_" ++ p) = some (nn : ℚ)) := by
  have hstep := profileStep_cols t p ws
  have hone : compute_profile_scores_from_df t [(p, ws)] = profileStep t p ws := rfl
  refine ⟨fun r => wscore_eq_spec t.cols ws r,
          fun r => wscore_filter_eq t.cols ws r,
          by rw [hone]; exact hstep.2.2.1,
          by rw [hone]; exact hstep.2.2.2,
          by rw [hone]; exact hstep.1,
          by rw [hone]; exact hstep.2.1,
          rfl,
          fun v hmax => denseRank_max _ v hmax,
          fun v w hv hlt hb => denseRank_succ _ v w hv hlt hb,
          fun v => Nat.le_add_right 1 _,
          ?_⟩
  intro r hr
  have hmem : r.vals ("rank_" ++ p)
      ∈ (compute_profile_scores_from_df t [(p, ws)]).rows.map
          (fun r => r.vals ("rank_" ++ p)) :=
    List.mem_map_of_mem _ hr
  rw [hone, hstep.2.1] at hmem
  obtain ⟨sv, _, hs⟩ := List.mem_map.1 hmem
  exact ⟨denseRank (t.rows.map (wscore t.cols ws)) sv, hs.symm⟩

/-- Claim C4 witness: the ranking theorem applied to a concrete table —
scores 2, 2, 1, NaN produce ranks 1, 1, 2, 0. -/
theorem policy_c4_witness :
    (compute_profile_scores_from_df tP4 [("c", wsP4)]).rows.map
        (fun r => r.vals ("score_" ++ "c")) = [some 2, some 2, some 1, none]
  ∧ denseRank [some 2, some 2, some 1, none] (some 2) = 1
  ∧ denseRank [some 2, some 2, some 1, none] (some 1) = 2
  ∧ denseRank [some 2, some 2, some 1, none] none = 0
  ∧ wscore tP4.cols wsP4 ⟨fun c => if c = "a" then some 2 else none⟩
      = specWeightedScore tP4.cols wsP4 ⟨fun c => if c = "a" then some 2 else none⟩ := by
  have h := policy_rank_props tP4 "c" wsP4
  have hmap : tP4.rows.map (wscore tP4.cols wsP4) = [some 2, some 2, some 1, none] := by
    simp [tP4, wsP4, wscore]
  refine ⟨?_, ?_, ?_, ?_, h.1 _⟩
  · rw [h.2.2.2.2.1, hmap]
  · rw [← hmap]
    refine h.2.2.2.2.2.2.2.1 2 ?_
    rw [hmap]
    intro w hw
    simp at hw
    rcases hw with rfl | rfl <;> norm_num
  · rw [← hmap]
    have h2 : denseRank (tP4.rows.map (wscore tP4.cols wsP4)) (some 2) = 1 := by
      refine h.2.2.2.2.2.2.2.1 2 ?_
      rw [hmap]
      intro w hw
      simp at hw
      rcases hw with rfl | rfl <;> norm_num
    have h21 : denseRank (tP4.rows.map (wscore tP4.cols wsP4)) (some 1)
        = denseRank (tP4.rows.map (wscore tP4.cols wsP4)) (some 2) + 1 := by
      refine h.2.2.2.2.2.2.2.2.1 2 1 (by rw [hmap]; decide) (by norm_num) ?_
      rw [hmap]
      intro u hu
      simp at hu
      rcases hu with rfl | rfl <;> norm_num
    rw [h21, h2]
  · rw [← hmap]
    exact h.2.2.2.2.2.2.1

/-- Claim C10: a profile whose weight mapping matches no table column
(including an empty mapping) gives every row the constant weighted score 0
and rank 1; rank 0 happens only on a NaN weighted score. -/
theorem policy_no_match_props (t : PTable) (p : String) (ws : List (String × ℚ)) :
    (ws.filter (fun q => decide (q.1 ∈ t.cols)) = [] →
      ((compute_profile_scores_from_df t [(p, ws)]).rows.map
          (fun r => r.vals ("score_" ++ p)) = t.rows.map (fun _ => some 0)
        ∧ (compute_profile_scores_from_df t [(p, ws)]).rows.map
          (fun r => r.vals ("rank_" ++ p)) = t.rows.map (fun _ => some 1)))
  ∧ (∀ s : Option ℚ, denseRank (t.rows.map (wscore t.cols ws)) s = 0 → s = none) := by
  constructor
  · intro hempty
    have hone : compute_profile_scores_from_df t [(p, ws)] = profileStep t p ws := rfl
    have hws : ∀ r : PRow, wscore t.cols ws r = some 0 := by
      intro r
      unfold wscore
      rw [if_pos hempty]
    have hscores : t.rows.map (wscore t.cols ws) = t.rows.map (fun _ => some 0) :=
      List.map_congr_left (fun r _ => hws r)
    constructor
    · rw [hone, (profileStep_cols t p ws).1, hscores]
    · rw [hone, (profileStep_cols t p ws).2.1, hscores, List.map_map]
      refine List.map_congr_left ?_
      intro r _
      dsimp only [Function.comp]
      have hdr : denseRank (t.rows.map (fun _ => some 0)) (some 0) = 1 := by
        apply denseRank_max
        intro w hw
        obtain ⟨a, _, ha⟩ := List.mem_map.1 hw
        have : (0 : ℚ) = w := Option.some.inj ha
        rw [← this]
      rw [hdr, Nat.cast_one]
  · intro s hs
    cases s with
    | none => rfl
    | some v =>
      rw [denseRank_some] at hs
      omega

/-- Claim C10 witness: a profile matching no column gives scores 0 and
ranks 1 on a concrete two-row table. -/
theorem policy_c10_witness :
    ((compute_profile_scores_from_df tP10 [("c", wsP10)]).rows.map
        (fun r => r.vals ("score_" ++ "c")) = [some 0, some 0])
  ∧ ((compute_profile_scores_from_df tP10 [("c", wsP10)]).rows.map
        (fun r => r.vals ("rank_" ++ "c")) = [some 1, some 1])
  ∧ (none : Option ℚ) = none := by
  have h := (policy_no_match_props tP10 "c" wsP10).1 (by decide)
  refine ⟨?_, ?_, (policy_no_match_props tP10 "c" wsP10).2 none rfl⟩
  · rw [h.1]
    simp [tP10]
  · rw [h.2]
    simp [tP10]

/-- an unknown method name turns into the not-found `ValueError` at
dispatch. -/
theorem computeBase_missing {κ : Type} [DecidableEq κ]
    (engine : String → Option (FMethod κ)) (df : List (FRow κ)) (fd : FeatureDef)
    (h : engine fd.method = none) :
    computeBase engine df fd
      = .error (.config ("Method " ++ fd.method ++ " not found in FEATURE_ENGINE")) := by
  unfold computeBase
  rw [h]

/-- the not-found error propagates through the whole feature computation. -/
theorem computeOne_missing {κ : Type} [DecidableEq κ]
    (engine : String → Option (FMethod κ)) (df : List (FRow κ))
    (n : String) (fd : FeatureDef) (h : engine fd.method = none) :
    computeOne engine df (n, fd)
      = .error (.config ("Method " ++ fd.method ++ " not found in FEATURE_ENGINE")) := by
  unfold computeOne
  rw [computeBase_missing engine df fd h]

/-- the feature loop aborts at the first feature whose method is unknown,
provided the features before it computed. -/
theorem collectFeatures_missing {κ : Type} [DecidableEq κ]
    (engine : String → Option (FMethod κ)) (df : List (FRow κ))
    (pre rest : List (String × FeatureDef)) (n : String) (fd : FeatureDef)
    (hfd : engine fd.method = none)
    (hpre : ∀ p ∈ pre, ∃ tp, computeOne engine df p = .ok tp) :
    collectFeatures engine df (pre ++ (n, fd) :: rest)
      = .error (.config ("Method " ++ fd.method ++ " not found in FEATURE_ENGINE")) := by
  induction pre with
  | nil =>
    rw [List.nil_append]
    show collectFeatures engine df ((n, fd) :: rest) = _
    rw [collectFeatures, computeOne_missing engine df n fd hfd]
  | cons hd tl ih =>
    obtain ⟨t0, ht0⟩ := hpre hd (by simp)
    rw [List.cons_append, collectFeatures, ht0,
      ih (fun p hp => hpre p (by simp [hp]))]

/-- Claim C6: a registry containing a feature whose method name is absent
from the method registry (the features before it being computable) makes
the feature engine fail with the `ValueError` naming the missing method,
and no table — partial or otherwise — is returned. -/
theorem unknown_method_atomic {κ : Type} [DecidableEq κ]
    (engine : String → Option (FMethod κ)) (df : List (FRow κ))
    (pre rest : List (String × FeatureDef)) (n : String) (fd : FeatureDef)
    (hfd : engine fd.method = none)
    (hpre : ∀ p ∈ pre, ∃ tp, computeOne engine df p = .ok tp) :
    compute_features engine df (pre ++ (n, fd) :: rest)
        = .error (.config ("Method " ++ fd.method ++ " not found in FEATURE_ENGINE"))
    ∧ ∀ tbl, compute_features engine df (pre ++ (n, fd) :: rest) ≠ .ok tbl := by
  have hcol := collectFeatures_missing engine df pre rest n fd hfd hpre
  constructor
  · rw [compute_features, hcol]
  · intro tbl hok
    rw [compute_features, hcol] at hok
    cases hok

/-- Claim C6 witness: a registry whose first feature computes and whose
second names an unknown method fails with the error naming it. -/
theorem unknown_method_c6_witness :
    compute_features demoEngine dfF7
        [("a", ⟨"sum", ["x"], []⟩), ("b", ⟨"bogus", [], []⟩)]
      = .error (.config ("Method " ++ "bogus" ++ " not found in FEATURE_ENGINE")) :=
  (unknown_method_atomic demoEngine dfF7 [("a", ⟨"sum", ["x"], []⟩)] []
    "b" ⟨"bogus", [], []⟩ rfl
    (by
      intro p hp
      have hpa : p = ("a", ⟨"sum", ["x"], []⟩) := by simpa using hp
      subst hpa
      refine ⟨[(0, some 3), (1, some 4)], ?_⟩
      simp [computeOne, computeBase, demoEngine, applyAdjs, fkeys, fgroup,
        nanSum, dfF7, List.dedup_cons_of_not_mem])).1

/-- the adjustment loop errors on the first absent name, provided the
names before it resolve to applicable entries. -/
theorem applyAdjs_missing {κ : Type} (engine : String → Option (FMethod κ))
    (a : String) (rest2 : List String) (ha : engine a = none) :
    ∀ (pre : List String) (tbl : List (κ × Option ℚ)),
      (∀ b ∈ pre, ∃ m, engine b = some m ∧ ∀ tb, ∃ tb2, applyAdj m tb = .ok tb2) →
      applyAdjs engine (pre ++ a :: rest2) tbl
        = .error (.config ("Adjustment " ++ a ++ " not found")) := by
  intro pre
  induction pre with
  | nil =>
    intro tbl _
    rw [List.nil_append]
    show applyAdjs engine (a :: rest2) tbl = _
    rw [applyAdjs, ha]
  | cons b tl ih =>
    intro tbl hpre
    obtain ⟨m, hm, happ⟩ := hpre b (by simp)
    obtain ⟨tb2, htb2⟩ := happ tbl
    rw [List.cons_append]
    simp only [applyAdjs, hm, htb2]
    exact ih tb2 (fun c hc => hpre c (by simp [hc]))

/-- Claim C5 (amended): an adjustment name absent from the method registry
fails the feature with the `ValueError` naming it (provided the listed
names before it resolve and apply).  But a present name of a different
kind is not rejected: an aggregation-kind entry is applied — its scalar
result broadcast over the column — and a row-operation- or custom-kind
entry fails with a Python `TypeError` (wrong arity), not a
ConfigurationError. -/
theorem adjustment_validation {κ : Type} [DecidableEq κ]
    (engine : String → Option (FMethod κ)) (df : List (FRow κ))
    (n : String) (fd : FeatureDef) (t0 : List (κ × Option ℚ)) :
    (computeBase engine df fd = .ok t0 →
      ∀ (pre : List String) (a : String) (rest2 : List String),
        fd.adjustment = pre ++ a :: rest2 → engine a = none →
        (∀ b ∈ pre, ∃ m, engine b = some m ∧ ∀ tb, ∃ tb2, applyAdj m tb = .ok tb2) →
        computeOne engine df (n, fd)
          = .error (.config ("Adjustment " ++ a ++ " not found")))
  ∧ (computeBase engine df fd = .ok t0 →
      ∀ (a : String) (f : List (Option ℚ) → Option ℚ),
        fd.adjustment = [a] → engine a = some (.aggregation f) →
        computeOne engine df (n, fd)
          = .ok (t0.map (fun p => (p.1, f (t0.map (fun q => q.2))))))
  ∧ (computeBase engine df fd = .ok t0 →
      ∀ (a : String) (m : FMethod κ),
        fd.adjustment = [a] → engine a = some m →
        (∀ f, m ≠ .adjustment f) → (∀ f, m ≠ .aggregation f) →
        computeOne engine df (n, fd) = .error .typeErr) := by
  refine ⟨?_, ?_, ?_⟩
  · intro hbase pre a rest2 hadj ha hpre
    show computeOne engine df (n, fd) = _
    unfold computeOne
    rw [hbase, hadj]
    exact applyAdjs_missing engine a rest2 ha pre t0 hpre
  · intro hbase a f hadj ha
    unfold computeOne
    rw [hbase, hadj]
    simp only [applyAdjs, ha, applyAdj]
  · intro hbase a m hadj ha hm1 hm2
    unfold computeOne
    rw [hbase, hadj]
    simp only [applyAdjs, ha]
    cases m with
    | adjustment f => exact absurd rfl (hm1 f)
    | aggregation f => exact absurd rfl (hm2 f)
    | row_operation f => rfl
    | custom f => rfl

/-- Claim C5 counterexample: a feature listing the registered aggregation
`max` as its adjustment is not rejected — the engine succeeds, applying
the aggregation as a broadcast — although `max` is registered with a kind
other than `adjustment`. -/
theorem adjustment_kind_c5_counterexample :
    compute_features demoEngine dfF5 [("f", ⟨"sum", ["x"], ["max"]⟩)]
        = .ok [(0, [some 3])]
  ∧ (demoEngine "max").map isAdjustmentKind = some false
  ∧ ∀ e, compute_features demoEngine dfF5 [("f", ⟨"sum", ["x"], ["max"]⟩)]
        ≠ .error e := by
  refine ⟨?_, rfl, ?_⟩
  · simp [compute_features, collectFeatures, computeOne, computeBase, demoEngine,
      applyAdjs, applyAdj, fkeys, fgroup, nanSum, dfF5, mergeLeft]
  · intro e hok
    rw [show compute_features demoEngine dfF5 [("f", ⟨"sum", ["x"], ["max"]⟩)]
        = .ok [(0, [some 3])] from by
      simp [compute_features, collectFeatures, computeOne, computeBase, demoEngine,
        applyAdjs, applyAdj, fkeys, fgroup, nanSum, dfF5, mergeLeft]] at hok
    cases hok

/-- Claim C5 witness: the amended theorem applied to concrete features — an
absent adjustment name after a valid `clip` raises the not-found error, a
`max` adjustment broadcasts, and a row-operation used as adjustment raises
a `TypeError`. -/
theorem adjustment_c5_witness :
    computeOne demoEngine dfF5 ("f", ⟨"sum", ["x"], ["clip", "bogus"]⟩)
        = .error (.config ("Adjustment " ++ "bogus" ++ " not found"))
  ∧ computeOne demoEngine dfF5 ("f", ⟨"sum", ["x"], ["max"]⟩)
        = .ok ([(0, some 3)].map (fun p =>
            (p.1, ([(0, some 3)].map (fun q => q.2)).filterMap id |>.max?)))
  ∧ computeOne demoEngine dfF5 ("f", ⟨"sum", ["x"], ["flag"]⟩) = .error .typeErr := by
  have hbase : computeBase demoEngine dfF5 (⟨"sum", ["x"], ["clip", "bogus"]⟩ : FeatureDef)
      = .ok [(0, some 3)] := by
    simp [computeBase, demoEngine, fkeys, fgroup, nanSum, dfF5]
  have hbase2 : computeBase demoEngine dfF5 (⟨"sum", ["x"], ["max"]⟩ : FeatureDef)
      = .ok [(0, some 3)] := by
    simp [computeBase, demoEngine, fkeys, fgroup, nanSum, dfF5]
  have hbase3 : computeBase demoEngine dfF5 (⟨"sum", ["x"], ["flag"]⟩ : FeatureDef)
      = .ok [(0, some 3)] := by
    simp [computeBase, demoEngine, fkeys, fgroup, nanSum, dfF5]
  refine ⟨?_, ?_, ?_⟩
  · refine (adjustment_validation demoEngine dfF5 "f" _ [(0, some 3)]).1 hbase
      ["clip"] "bogus" [] rfl rfl ?_
    intro b hb
    have hbc : b = "clip" := by simpa using hb
    subst hbc
    exact ⟨_, rfl, fun tb => ⟨_, rfl⟩⟩
  · exact (adjustment_validation demoEngine dfF5 "f" _ [(0, some 3)]).2.1 hbase2
      "max" _ rfl rfl
  · exact (adjustment_validation demoEngine dfF5 "f" _ [(0, some 3)]).2.2 hbase3
      "flag" _ rfl rfl (fun f h => by cases h) (fun f h => by cases h)

/-- every left-join output row extends exactly one base row by one cell,
which is NaN when the row's key misses the right table. -/
theorem mergeLeft_rows_shape {κ : Type} [DecidableEq κ]
    (base : List (κ × List (Option ℚ))) (tbl : List (κ × Option ℚ)) :
    ∀ p ∈ mergeLeft base tbl, ∃ q ∈ base, p.1 = q.1
      ∧ ∃ c, p.2 = q.2 ++ [c] ∧ (p.1 ∉ tbl.map Prod.fst → c = none) := by
  intro p hp
  rw [mergeLeft, List.mem_flatMap] at hp
  obtain ⟨q, hq, hpq⟩ := hp
  cases hms : lookupRows tbl q.1 with
  | nil =>
    rw [hms] at hpq
    simp only [List.mem_singleton] at hpq
    subst hpq
    exact ⟨q, hq, rfl, none, rfl, fun _ => rfl⟩
  | cons m ms =>
    rw [hms] at hpq
    rw [List.mem_map] at hpq
    obtain ⟨m2, hm2, hpm⟩ := hpq
    subst hpm
    refine ⟨q, hq, rfl, m2.2, rfl, ?_⟩
    intro hmiss
    exfalso
    apply hmiss
    have hm2t : m2 ∈ tbl ∧ m2.1 = q.1 := by
      have := hms ▸ hm2
      rw [lookupRows, List.mem_filter] at this
      exact ⟨this.1, by simpa using this.2⟩
    rw [List.mem_map]
    exact ⟨m2, hm2t.1, hm2t.2⟩

/-- a left join neither adds nor removes group keys. -/
theorem mergeLeft_keys {κ : Type} [DecidableEq κ]
    (base : List (κ × List (Option ℚ))) (tbl : List (κ × Option ℚ)) (k : κ) :
    k ∈ (mergeLeft base tbl).map Prod.fst ↔ k ∈ base.map Prod.fst := by
  constructor
  · intro h
    rw [List.mem_map] at h
    obtain ⟨p, hp, hk⟩ := h
    obtain ⟨q, hq, hpq, _⟩ := mergeLeft_rows_shape base tbl p hp
    rw [List.mem_map]
    exact ⟨q, hq, hpq ▸ hk⟩
  · intro h
    rw [List.mem_map] at h
    obtain ⟨q, hq, hk⟩ := h
    rw [List.mem_map]
    cases hms : lookupRows tbl q.1 with
    | nil =>
      refine ⟨(q.1, q.2 ++ [none]), ?_, hk⟩
      rw [mergeLeft, List.mem_flatMap]
      exact ⟨q, hq, by rw [hms]; simp⟩
    | cons m ms =>
      refine ⟨(q.1, q.2 ++ [m.2]), ?_, hk⟩
      rw [mergeLeft, List.mem_flatMap]
      refine ⟨q, hq, ?_⟩
      rw [hms]
      exact List.mem_map_of_mem _ (by simp)

/-- the key set is invariant under the whole left-join fold. -/
theorem foldl_mergeLeft_keys {κ : Type} [DecidableEq κ] :
    ∀ (ts : List (List (κ × Option ℚ))) (base : List (κ × List (Option ℚ))) (k : κ),
      k ∈ (ts.foldl mergeLeft base).map Prod.fst ↔ k ∈ base.map Prod.fst := by
  intro ts
  induction ts with
  | nil => intro base k; exact Iff.rfl
  | cons t ts ih =>
    intro base k
    rw [List.foldl_cons, ih (mergeLeft base t) k, mergeLeft_keys]

/-- a left join adds one cell to every row. -/
theorem mergeLeft_length {κ : Type} [DecidableEq κ]
    (base : List (κ × List (Option ℚ))) (tbl : List (κ × Option ℚ)) (L0 : ℕ)
    (hL : ∀ q ∈ base, q.2.length = L0) :
    ∀ p ∈ mergeLeft base tbl, p.2.length = L0 + 1 := by
  intro p hp
  obtain ⟨q, hq, _, c, hc, _⟩ := mergeLeft_rows_shape base tbl p hp
  rw [hc, List.length_append, hL q hq]
  rfl

/-- each output row of the fold traces back to a base row whose cells it
extends in place. -/
theorem foldl_mergeLeft_origin {κ : Type} [DecidableEq κ] :
    ∀ (ts : List (List (κ × Option ℚ))) (base : List (κ × List (Option ℚ)))
      (p : κ × List (Option ℚ)), p ∈ ts.foldl mergeLeft base →
      ∃ q ∈ base, p.1 = q.1 ∧ ∀ j, j < q.2.length → p.2.get? j = q.2.get? j := by
  intro ts
  induction ts with
  | nil => intro base p hp; exact ⟨p, hp, rfl, fun j _ => rfl⟩
  | cons t ts ih =>
    intro base p hp
    rw [List.foldl_cons] at hp
    obtain ⟨q, hq, hk, hj⟩ := ih (mergeLeft base t) p hp
    obtain ⟨q0, hq0, hk0, c, hc, _⟩ := mergeLeft_rows_shape base t q hq
    refine ⟨q0, hq0, hk.trans hk0, ?_⟩
    intro j hjl
    rw [hj j ?_, hc, List.get?_append hjl]
    rw [hc, List.length_append]
    omega

/-- positions filled by feature `i` read NaN on every final row whose key
the `i`-th later feature table misses. -/
theorem foldl_mergeLeft_missing {κ : Type} [DecidableEq κ] :
    ∀ (ts : List (List (κ × Option ℚ))) (base : List (κ × List (Option ℚ)))
      (L0 : ℕ), (∀ q ∈ base, q.2.length = L0) →
      ∀ (i : ℕ) (ti : List (κ × Option ℚ)), ts.get? i = some ti →
      ∀ p ∈ ts.foldl mergeLeft base, p.1 ∉ ti.map Prod.fst →
      p.2.get? (L0 + i) = some none := by
  intro ts
  induction ts with
  | nil =>
    intro base L0 _ i ti hti
    cases hti
  | cons t ts ih =>
    intro base L0 hL i ti hti p hp hmiss
    cases i with
    | zero =>
      have hti0 : ti = t := by
        have : some t = some ti := hti
        exact (Option.some.inj this).symm
      subst hti0
      rw [List.foldl_cons] at hp
      obtain ⟨q, hq, hk, hj⟩ := foldl_mergeLeft_origin ts (mergeLeft base ti) p hp
      obtain ⟨q0, hq0, hk0, c, hc, hcnone⟩ := mergeLeft_rows_shape base ti q hq
      have hqlen : q.2.length = L0 + 1 := mergeLeft_length base ti L0 hL q hq
      have hcn : c = none := hcnone (by rw [← hk]; exact hmiss)
      have hq2 : q.2.get? L0 = some none := by
        rw [hc, List.get?_append_right (by rw [hL q0 hq0])]
        rw [hL q0 hq0]
        simp [hcn]
      rw [Nat.add_zero, hj L0 (by omega), hq2]
    | succ j =>
      have hlen2 : ∀ q ∈ mergeLeft base t, q.2.length = L0 + 1 :=
        mergeLeft_length base t L0 hL
      rw [List.foldl_cons] at hp
      have := ih (mergeLeft base t) (L0 + 1) hlen2 j ti hti p hp hmiss
      rw [show L0 + 1 + j = L0 + (j + 1) from by omega] at this
      exact this

/-- Claim C7: a successful run of the feature engine computes the first
feature's table, then the remaining ones in definition order, and
left-joins them pairwise onto the first: the final key set equals the
first table's, and a key missing from the `i`-th later feature table reads
NaN at that feature's position (the first feature occupies position 0). -/
theorem compute_features_merge {κ : Type} [DecidableEq κ]
    (engine : String → Option (FMethod κ)) (df : List (FRow κ))
    (first : String × FeatureDef) (rest : List (String × FeatureDef))
    (final : List (κ × List (Option ℚ)))
    (h : compute_features engine df (first :: rest) = .ok final) :
    ∃ t0 ts, computeOne engine df first = .ok t0
      ∧ collectFeatures engine df rest = .ok ts
      ∧ final = ts.foldl mergeLeft (t0.map (fun p => (p.1, [p.2])))
      ∧ (∀ k, k ∈ final.map Prod.fst ↔ k ∈ t0.map Prod.fst)
      ∧ (∀ i ti, ts.get? i = some ti → ∀ p ∈ final, p.1 ∉ ti.map Prod.fst →
          p.2.get? (i + 1) = some none) := by
  cases hc1 : computeOne engine df first with
  | error e =>
    rw [compute_features, collectFeatures, hc1] at h
    cases h
  | ok t0 =>
    cases hc2 : collectFeatures engine df rest with
    | error e =>
      rw [compute_features, collectFeatures, hc1, hc2] at h
      cases h
    | ok ts =>
      rw [compute_features, collectFeatures, hc1, hc2] at h
      have hfin : final = ts.foldl mergeLeft (t0.map (fun p => (p.1, [p.2]))) :=
        (Except.ok.inj h).symm
      refine ⟨t0, ts, rfl, rfl, hfin, ?_, ?_⟩
      · intro k
        rw [hfin, foldl_mergeLeft_keys, List.map_map]
        exact Iff.rfl
      · intro i ti hti p hp hmiss
        rw [hfin] at hp
        have h1 : ∀ q ∈ t0.map (fun p => (p.1, ([p.2] : List (Option ℚ)))),
            q.2.length = 1 := by
          intro q hq
          obtain ⟨q0, _, rfl⟩ := List.mem_map.1 hq
          rfl
        have := foldl_mergeLeft_missing ts _ 1 h1 i ti hti p hp hmiss
        rw [show 1 + i = i + 1 from by omega] at this
        exact this

/-- Claim C7 witness: the merge theorem applied to a two-feature registry
whose second (custom) feature covers only key 0 — the final table keeps
keys 0 and 1 and reads NaN at position 1 for key 1. -/
theorem compute_features_c7_witness :
    ∃ t0 ts, computeOne demoEngine dfF7 ("a", ⟨"sum", ["x"], []⟩) = .ok t0
      ∧ collectFeatures demoEngine dfF7 [("b", ⟨"only0", [], []⟩)] = .ok ts
      ∧ [(0, [some 3, some 5]), (1, [some 4, none])]
          = ts.foldl mergeLeft (t0.map (fun p => (p.1, [p.2])))
      ∧ (∀ k, k ∈ ([(0, [some 3, some 5]), (1, [some 4, none])]
            : List (ℕ × List (Option ℚ))).map Prod.fst ↔ k ∈ t0.map Prod.fst)
      ∧ (∀ i ti, ts.get? i = some ti →
          ∀ p ∈ ([(0, [some 3, some 5]), (1, [some 4, none])]
            : List (ℕ × List (Option ℚ))), p.1 ∉ ti.map Prod.fst →
          p.2.get? (i + 1) = some none) :=
  compute_features_merge demoEngine dfF7 ("a", ⟨"sum", ["x"], []⟩)
    [("b", ⟨"only0", [], []⟩)] [(0, [some 3, some 5]), (1, [some 4, none])]
    (by
      simp [compute_features, collectFeatures, computeOne, computeBase, demoEngine,
        applyAdjs, fkeys, fgroup, nanSum, dfF7, mergeLeft, lookupRows,
        List.dedup_cons_of_not_mem])

/-- skipping datasets with an empty feature mapping is the same as
filtering them out of the registry beforehand. -/
theorem gatherResults_filter {κ : Type} [DecidableEq κ]
    (engine : String → Option (FMethod κ)) (datasets : List (String × List (FRow κ))) :
    ∀ registry : List (String × List (String × FeatureDef)),
      gatherResults engine datasets registry
        = gatherResults engine datasets
            (registry.filter (fun p => decide (p.2 ≠ []))) := by
  intro registry
  induction registry with
  | nil => rfl
  | cons hd rest ih =>
    obtain ⟨ds, cfg⟩ := hd
    by_cases hc : cfg = []
    · subst hc
      have hfilter : ((ds, ([] : List (String × FeatureDef))) :: rest).filter
          (fun p => decide (p.2 ≠ []))
          = rest.filter (fun p => decide (p.2 ≠ [])) := by
        simp [List.filter_cons]
      rw [hfilter]
      show gatherResults engine datasets rest = _
      exact ih
    · have hfilter : ((ds, cfg) :: rest).filter (fun p => decide (p.2 ≠ []))
          = (ds, cfg) :: rest.filter (fun p => decide (p.2 ≠ [])) := by
        simp [List.filter_cons, hc]
      rw [hfilter]
      simp only [gatherResults, if_neg hc]
      cases datasets.find? (fun p => decide (p.1 = ds)) with
      | none => rfl
      | some p =>
        dsimp only
        cases compute_features engine p.2 cfg with
        | error e => rfl
        | ok t =>
          dsimp only
          rw [ih]

/-- a registry of only empty feature mappings produces no results. -/
theorem gatherResults_all_empty {κ : Type} [DecidableEq κ]
    (engine : String → Option (FMethod κ)) (datasets : List (String × List (FRow κ))) :
    ∀ registry : List (String × List (String × FeatureDef)),
      (∀ p ∈ registry, p.2 = []) → gatherResults engine datasets registry = .ok [] := by
  intro registry
  induction registry with
  | nil => intro _; rfl
  | cons hd rest ih =>
    intro h
    obtain ⟨ds, cfg⟩ := hd
    have hc : cfg = [] := h (ds, cfg) (by simp)
    subst hc
    rw [gatherResults, if_pos rfl]
    exact ih (fun p hp => h p (by simp [hp]))

/-- every successfully computed dataset's feature table is among the
gathered results. -/
theorem gatherResults_mem {κ : Type} [DecidableEq κ]
    (engine : String → Option (FMethod κ)) (datasets : List (String × List (FRow κ))) :
    ∀ (registry : List (String × List (String × FeatureDef)))
      (ts : List (FTable κ)) (ds : String) (cfg : List (String × FeatureDef))
      (p : String × List (FRow κ)) (t : List (κ × List (Option ℚ))),
      gatherResults engine datasets registry = .ok ts →
      (ds, cfg) ∈ registry → cfg ≠ [] →
      datasets.find? (fun q => decide (q.1 = ds)) = some p →
      compute_features engine p.2 cfg = .ok t →
      FTable.mk cfg.length t ∈ ts := by
  intro registry
  induction registry with
  | nil =>
    intro ts ds cfg p t _ hmem
    cases hmem
  | cons hd rest ih =>
    intro ts ds cfg p t hg hmem hne hfind hcomp
    obtain ⟨ds0, cfg0⟩ := hd
    rcases List.mem_cons.1 hmem with heq | hmem2
    · injection heq with hds hcfg
      subst hds
      subst hcfg
      rw [gatherResults, if_neg hne, hfind] at hg
      dsimp only at hg
      rw [hcomp] at hg
      cases hg2 : gatherResults engine datasets rest with
      | error e => rw [hg2] at hg; cases hg
      | ok ts2 =>
        rw [hg2] at hg
        have : FTable.mk cfg.length t :: ts2 = ts := Except.ok.inj hg
        rw [← this]
        exact List.mem_cons_self _ _
    · rw [gatherResults] at hg
      by_cases hc0 : cfg0 = []
      · rw [if_pos hc0] at hg
        exact ih ts ds cfg p t hg hmem2 hne hfind hcomp
      · rw [if_neg hc0] at hg
        cases hf0 : datasets.find? (fun q => decide (q.1 = ds0)) with
        | none => rw [hf0] at hg; cases hg
        | some p0 =>
          rw [hf0] at hg
          dsimp only at hg
          cases hcf0 : compute_features engine p0.2 cfg0 with
          | error e => rw [hcf0] at hg; cases hg
          | ok t0 =>
            rw [hcf0] at hg
            cases hg2 : gatherResults engine datasets rest with
            | error e => rw [hg2] at hg; cases hg
            | ok ts2 =>
              rw [hg2] at hg
              have hts : FTable.mk cfg0.length t0 :: ts2 = ts := Except.ok.inj hg
              rw [← hts]
              exact List.mem_cons_of_mem _ (ih ts2 ds cfg p t hg2 hmem2 hne hfind hcomp)

/-- outer-merge membership, left side. -/
theorem outerMerge_keys_left {κ : Type} [DecidableEq κ] (A B : FTable κ) (k : κ)
    (h : k ∈ A.rows.map Prod.fst) : k ∈ (outerMerge A B).rows.map Prod.fst := by
  rw [List.mem_map] at h
  obtain ⟨q, hq, hk⟩ := h
  rw [outerMerge]
  dsimp only
  rw [List.map_append]
  apply List.mem_append_left
  rw [List.mem_map]
  cases hms : lookupRows B.rows q.1 with
  | nil =>
    refine ⟨(q.1, q.2 ++ List.replicate B.ncols none), ?_, hk⟩
    rw [List.mem_flatMap]
    exact ⟨q, hq, by rw [hms]; simp⟩
  | cons m ms =>
    refine ⟨(q.1, q.2 ++ m.2), ?_, hk⟩
    rw [List.mem_flatMap]
    refine ⟨q, hq, ?_⟩
    rw [hms]
    exact List.mem_map_of_mem _ (by simp)

/-- outer-merge membership, right side. -/
theorem outerMerge_keys_right {κ : Type} [DecidableEq κ] (A B : FTable κ) (k : κ)
    (h : k ∈ B.rows.map Prod.fst) : k ∈ (outerMerge A B).rows.map Prod.fst := by
  by_cases hA : k ∈ A.rows.map Prod.fst
  · exact outerMerge_keys_left A B k hA
  · rw [List.mem_map] at h
    obtain ⟨m, hm, hk⟩ := h
    rw [outerMerge]
    dsimp only
    rw [List.map_append]
    apply List.mem_append_right
    rw [List.map_map, List.mem_map]
    refine ⟨m, ?_, hk⟩
    rw [List.mem_filter]
    refine ⟨hm, ?_⟩
    simp only [decide_eq_true_eq]
    rw [hk]
    exact hA

/-- any key of any merged table survives the outer-merge fold. -/
theorem foldl_outerMerge_keys {κ : Type} [DecidableEq κ] :
    ∀ (ts : List (FTable κ)) (base : FTable κ) (k : κ),
      (k ∈ base.rows.map Prod.fst ∨ ∃ t ∈ ts, k ∈ t.rows.map Prod.fst) →
      k ∈ ((ts.foldl outerMerge base).rows.map Prod.fst) := by
  intro ts
  induction ts with
  | nil =>
    intro base k h
    rcases h with h | ⟨t, ht, _⟩
    · exact h
    · cases ht
  | cons t ts ih =>
    intro base k h
    rw [List.foldl_cons]
    apply ih
    rcases h with h | ⟨t2, ht2, hk2⟩
    · exact Or.inl (outerMerge_keys_left base t k h)
    · rcases List.mem_cons.1 ht2 with rfl | ht3
      · exact Or.inl (outerMerge_keys_right base t2 k hk2)
      · exact Or.inr ⟨t2, ht3, hk2⟩

/-- outer-merge rows are NaN-padded on whichever side misses their key. -/
theorem outerMerge_padding {κ : Type} [DecidableEq κ] (A B : FTable κ) :
    ∀ p ∈ (outerMerge A B).rows,
      (p.1 ∉ B.rows.map Prod.fst → ∃ vs, p.2 = vs ++ List.replicate B.ncols none)
      ∧ (p.1 ∉ A.rows.map Prod.fst → ∃ vs, p.2 = List.replicate A.ncols none ++ vs) := by
  intro p hp
  rw [outerMerge] at hp
  dsimp only at hp
  rcases List.mem_append.1 hp with hl | hr
  · rw [List.mem_flatMap] at hl
    obtain ⟨q, hq, hpq⟩ := hl
    cases hms : lookupRows B.rows q.1 with
    | nil =>
      rw [hms] at hpq
      simp only [List.mem_singleton] at hpq
      subst hpq
      refine ⟨fun _ => ⟨q.2, rfl⟩, fun hmiss => absurd ?_ hmiss⟩
      exact show q.1 ∈ A.rows.map Prod.fst from List.mem_map_of_mem _ hq
    | cons m ms =>
      rw [hms] at hpq
      rw [List.mem_map] at hpq
      obtain ⟨m2, hm2, hpm⟩ := hpq
      subst hpm
      constructor
      · intro hmiss
        exfalso
        apply hmiss
        have hm2t : m2 ∈ B.rows ∧ m2.1 = q.1 := by
          have := hms ▸ hm2
          rw [lookupRows, List.mem_filter] at this
          exact ⟨this.1, by simpa using this.2⟩
        exact List.mem_map.2 ⟨m2, hm2t.1, hm2t.2⟩
      · intro hmiss
        exact absurd (List.mem_map_of_mem _ hq) hmiss
  · rw [List.mem_map] at hr
    obtain ⟨m, hm, hpm⟩ := hr
    subst hpm
    rw [List.mem_filter] at hm
    constructor
    · intro hmiss
      exact absurd (List.mem_map_of_mem _ hm.1) hmiss
    · intro _
      exact ⟨m.2, rfl⟩

/-- Claim C9: dataset assembly skips datasets with an empty feature mapping
(the run equals the one on the filtered registry); a registry whose every
dataset is empty fails with the no-features `ValueError`; on success every
group key of any computed per-dataset table appears in the final table;
and each outer merge NaN-pads the columns of the side missing a key. -/
theorem compute_all_features_props {κ : Type} [DecidableEq κ]
    (engine : String → Option (FMethod κ)) (datasets : List (String × List (FRow κ)))
    (registry : List (String × List (String × FeatureDef))) :
    (compute_all_features engine datasets registry
        = compute_all_features engine datasets
            (registry.filter (fun p => decide (p.2 ≠ []))))
  ∧ ((∀ p ∈ registry, p.2 = []) →
      compute_all_features engine datasets registry
        = .error (.config "No features computed. Check your YAML registry."))
  ∧ (∀ final, compute_all_features engine datasets registry = .ok final →
      ∃ ts, gatherResults engine datasets registry = .ok ts
        ∧ (∀ t ∈ ts, ∀ k ∈ t.rows.map Prod.fst, k ∈ final.rows.map Prod.fst)
        ∧ ∀ (ds : String) (cfg : List (String × FeatureDef))
            (p : String × List (FRow κ)) (t : List (κ × List (Option ℚ))),
            (ds, cfg) ∈ registry → cfg ≠ [] →
            datasets.find? (fun q => decide (q.1 = ds)) = some p →
            compute_features engine p.2 cfg = .ok t →
            FTable.mk cfg.length t ∈ ts)
  ∧ (∀ A B : FTable κ, ∀ p ∈ (outerMerge A B).rows,
      (p.1 ∉ B.rows.map Prod.fst → ∃ vs, p.2 = vs ++ List.replicate B.ncols none)
      ∧ (p.1 ∉ A.rows.map Prod.fst →
          ∃ vs, p.2 = List.replicate A.ncols none ++ vs)) := by
  refine ⟨?_, ?_, ?_, outerMerge_padding⟩
  · rw [compute_all_features, compute_all_features, gatherResults_filter]
  · intro hall
    rw [compute_all_features, gatherResults_all_empty engine datasets registry hall]
  · intro final hfinal
    cases hg : gatherResults engine datasets registry with
    | error e =>
      rw [compute_all_features, hg] at hfinal
      cases hfinal
    | ok ts =>
      refine ⟨ts, rfl, ?_, fun ds cfg p t hmem hne hfind hcomp =>
        gatherResults_mem engine datasets registry ts ds cfg p t hg hmem hne hfind hcomp⟩
      intro t ht k hk
      cases hts : ts with
      | nil =>
        rw [hts] at ht
        cases ht
      | cons t1 ts1 =>
        rw [compute_all_features, hg, hts] at hfinal
        have hfin : ts1.foldl outerMerge t1 = final := Except.ok.inj hfinal
        rw [← hfin]
        apply foldl_outerMerge_keys
        rw [hts] at ht
        rcases List.mem_cons.1 ht with rfl | ht2
        · exact Or.inl hk
        · exact Or.inr ⟨t, ht2, hk⟩

/-- Claim C9 witness: assembly of two concrete one-key datasets (with an
empty one skipped): the all-empty registry errors; the outer-merged result
holds both keys; and outer-merge pads the missing side with NaN. -/
theorem compute_all_c9_witness :
    compute_all_features demoEngine datasets9 [("d1", []), ("d2", [])]
        = .error (.config "No features computed. Check your YAML registry.")
  ∧ (∃ ts, gatherResults demoEngine datasets9 registry9 = .ok ts
      ∧ (∀ t ∈ ts, ∀ k ∈ t.rows.map Prod.fst,
          k ∈ (FTable.mk 2 [(0, [some 3, none]), (1, [none, some 4])]
            : FTable ℕ).rows.map Prod.fst)
      ∧ ∀ (ds : String) (cfg : List (String × FeatureDef))
          (p : String × List (FRow ℕ)) (t : List (ℕ × List (Option ℚ))),
          (ds, cfg) ∈ registry9 → cfg ≠ [] →
          datasets9.find? (fun q => decide (q.1 = ds)) = some p →
          compute_features demoEngine p.2 cfg = .ok t →
          FTable.mk cfg.length t ∈ ts)
  ∧ (∃ vs, ([some 3, none] : List (Option ℚ)) = vs ++ List.replicate 1 none) := by
  have hok : compute_all_features demoEngine datasets9 registry9
      = .ok (FTable.mk 2 [(0, [some 3, none]), (1, [none, some 4])]) := by
    simp [compute_all_features, gatherResults, compute_features, collectFeatures,
      computeOne, computeBase, demoEngine, applyAdjs, fkeys, fgroup, nanSum,
      mergeLeft, lookupRows, outerMerge, datasets9, registry9, dfF5, dfF9b,
      List.dedup_cons_of_not_mem, List.find?]
  refine ⟨(compute_all_features_props demoEngine datasets9
      [("d1", []), ("d2", [])]).2.1 (by decide),
    (compute_all_features_props demoEngine datasets9 registry9).2.2.1 _ hok,
    ?_⟩
  have hmem : ((0 : ℕ), ([some 3, none] : List (Option ℚ)))
      ∈ (outerMerge (FTable.mk 1 [(0, [some 3])]) (FTable.mk 1 [(1, [some 4])])
          : FTable ℕ).rows := by
    simp [outerMerge, lookupRows]
  exact ((compute_all_features_props demoEngine datasets9 registry9).2.2.2
    (FTable.mk 1 [(0, [some 3])]) (FTable.mk 1 [(1, [some 4])])
    (0, [some 3, none]) hmem).1 (by decide)

end FifRecsys
